import Mathlib

/-!
Shallow embedding of the Stormy Seas solver engine
(`src/stormyseas/solve.py`) and verification of the frozen claims.

Python integers are modelled as `Int`; tuples of positions as `List Position`;
the `dict` visited map as an insertion-ordered association list; exceptions as
`Option`/dedicated result types.  `while` loops are modelled with explicit fuel:
a `none`/`outOfFuel` result means the loop had not finished within the given
number of iterations.

Python `NamedTuple` equality ignores the subclass, so two `Piece` values compare
equal iff their `(id, positions)` components agree even when one is a `Boat` and
the other a `Wave`; `Piece.peq` and `State.seq` model that equality and are used
everywhere the Python code uses `==`/`in`/dict lookup.
-/

namespace StormySeas

/-- `Delta(row, column)` from `solve.py`. -/
structure Delta where
  row : Int
  column : Int
deriving DecidableEq, Repr

/-- `Position(row, column)` from `solve.py`. -/
structure Position where
  row : Int
  column : Int
deriving DecidableEq, Repr

/-- `Position.__add__`: positionwise addition of a delta. -/
def Position.add (p : Position) (d : Delta) : Position :=
  ⟨p.row + d.row, p.column + d.column⟩

/-- The four members of the `Cardinal` direction enum. -/
inductive Cardinal
  | UP
  | DOWN
  | LEFT
  | RIGHT
deriving DecidableEq, Repr

/-- `Cardinal.DELTAS`. -/
def Cardinal.delta : Cardinal → Delta
  | .LEFT => ⟨0, -1⟩
  | .RIGHT => ⟨0, 1⟩
  | .UP => ⟨-1, 0⟩
  | .DOWN => ⟨1, 0⟩

/-- `Cardinal.OPPOSITES`. -/
def Cardinal.opposite : Cardinal → Cardinal
  | .LEFT => .RIGHT
  | .RIGHT => .LEFT
  | .UP => .DOWN
  | .DOWN => .UP

/-- `Cardinal.transform`: shift every position by the direction's delta. -/
def Cardinal.transform (c : Cardinal) (ps : List Position) : List Position :=
  ps.map (fun p => p.add c.delta)

/-- The Python class of a piece: `Boat` or `Wave`. -/
inductive PieceKind
  | boat
  | wave
deriving DecidableEq, Repr

/-- A `Piece` (`Boat` or `Wave`): an id string and an ordered tuple of positions.
The Python subclass is recorded in `kind`. -/
structure Piece where
  kind : PieceKind
  id : String
  positions : List Position
deriving DecidableEq, Repr

/-- Python `NamedTuple` equality on pieces: it compares the `(id, positions)`
tuple and ignores the subclass (`Boat('A', ps) == Wave('A', ps)` is `True`). -/
def Piece.peq (a b : Piece) : Bool :=
  a.id == b.id && a.positions == b.positions

/-- `Piece.directions`: boats move in all four cardinals (in enum declaration
order), waves only LEFT and RIGHT. -/
def Piece.directionsList (p : Piece) : List Cardinal :=
  match p.kind with
  | .boat => [.UP, .DOWN, .LEFT, .RIGHT]
  | .wave => [.LEFT, .RIGHT]

/-- `Piece.move`: raises (`none`) when the direction is not allowed for the
piece, otherwise shifts every position by the direction's delta, keeping the
subclass and id. -/
def Piece.movePiece (p : Piece) (d : Cardinal) : Option Piece :=
  if d ∈ p.directionsList then some ⟨p.kind, p.id, d.transform p.positions⟩
  else none

/-- `Piece.collides_with`: true iff the pieces are of different classes and
share at least one position. -/
def Piece.collidesWith (a b : Piece) : Bool :=
  a.kind != b.kind && a.positions.any (fun pos => b.positions.contains pos)

/-- `Boat.RED_BOAT_ID`. -/
def RED_BOAT_ID : String := "X"

/-- `Piece.character`: waves render as `'#'`; a boat cell renders as the boat's
id, lowercased only when the boat is the red boat and the cell is its front
(first) position. -/
def Piece.character (p : Piece) (pos : Position) : String :=
  match p.kind with
  | .wave => "#"
  | .boat =>
    if p.id == RED_BOAT_ID && p.positions.head? == some pos then "x" else p.id

/-- `Wave.COUNT`: the board height. -/
def WAVE_COUNT : Int := 8

/-- `Wave.LENGTH`: the board width. -/
def WAVE_LENGTH : Int := 9

/-- A `Move` record: piece id, direction and distance (default 1). -/
structure Move where
  piece_id : String
  direction : Cardinal
  distance : Nat
deriving DecidableEq, Repr

/-- `Move.can_merge_with`: same piece id and same direction. -/
def Move.canMergeWith (a b : Move) : Bool :=
  a.piece_id == b.piece_id && a.direction == b.direction

/-- `State`: a tuple of pieces. -/
structure State where
  pieces : List Piece
deriving DecidableEq, Repr

/-- Python `State` equality (`NamedTuple` tuple equality): pointwise `Piece.peq`
over the piece tuples. -/
def State.seq (s t : State) : Bool :=
  s.pieces.length == t.pieces.length &&
    (s.pieces.zip t.pieces).all (fun q => Piece.peq q.1 q.2)

/-- `State.all_positions`: the concatenation of every piece's positions. -/
def State.allPositions (s : State) : List Position :=
  s.pieces.flatMap (fun p => p.positions)

/-- `State.has_collision`: true iff the flattened position list has a repeat
(`len(list) != len(set)`). -/
def State.hasCollision (s : State) : Bool :=
  s.allPositions.length != s.allPositions.dedup.length

/-- Minimum of a nonempty list of integers (`min(xs)`). -/
def listMin (x : Int) (xs : List Int) : Int :=
  xs.foldl min x

/-- Maximum of a nonempty list of integers (`max(xs)`). -/
def listMax (x : Int) (xs : List Int) : Int :=
  xs.foldl max x

/-- `State.has_piece_out_of_bounds`: unpacking `zip(*...)` raises `ValueError`
(modelled as `none`) when there are no positions at all; otherwise true iff some
row is outside `[0, Wave.COUNT)` or some column is outside `[0, Wave.LENGTH)`. -/
def State.hasPieceOutOfBoundsE (s : State) : Option Bool :=
  match s.allPositions with
  | [] => none
  | p :: ps =>
    let rows := p.row :: ps.map (fun q => q.row)
    let cols := p.column :: ps.map (fun q => q.column)
    some (decide (listMin p.row rows < 0) || decide (listMax p.row rows ≥ WAVE_COUNT)
      || decide (listMin p.column cols < 0) || decide (listMax p.column cols ≥ WAVE_LENGTH))

/-- `State.is_valid`: `not has_collision() and not has_piece_out_of_bounds()`;
the collision check is evaluated first (short-circuit), and the bounds check can
raise (`none`). -/
def State.isValidE (s : State) : Option Bool :=
  if s.hasCollision then some false
  else s.hasPieceOutOfBoundsE.map (fun b => !b)

/-- `Puzzle.PORT`: the red boat's goal positions, front first. -/
def PORT : List Position := [⟨7, 5⟩, ⟨6, 5⟩]

/-- `State.find_piece`: the first piece with the given id (`next(...)`), or
`none` (`StopIteration`) when there is none. -/
def State.findPiece (s : State) (i : String) : Option Piece :=
  s.pieces.find? (fun p => p.id == i)

/-- `State.is_solved`: the red boat's positions equal `Puzzle.PORT`; raises
(`none`) when there is no piece with id `'X'`. -/
def State.isSolvedE (s : State) : Option Bool :=
  (s.findPiece RED_BOAT_ID).map (fun p => p.positions == PORT)

/-- `pieces[pieces.index(old_piece)] = new_piece`: replace the first entry that
is Python-equal to `old`, or `none` (`ValueError`) when there is none. -/
def replaceFirst : List Piece → Piece → Piece → Option (List Piece)
  | [], _, _ => none
  | q :: rest, old, np =>
    if Piece.peq q old then some (np :: rest)
    else (replaceFirst rest old np).map (fun l => q :: l)

/-- The inner scan of `State._push`: walk the working piece list and append to
the work queue every piece that is not already in the queue (Python `in`, i.e.
`Piece.peq`) and collides with the freshly moved piece. -/
def scanEnqueue (np : Piece) (ps : List Piece) (q : List Piece) : List Piece :=
  ps.foldl
    (fun q other =>
      if !(q.any (fun e => Piece.peq e other)) && np.collidesWith other then q ++ [other]
      else q)
    q

/-- The `while queue:` loop of `State._push`, with explicit fuel bounding the
number of dequeues. `none` models nontermination within the fuel or a raised
exception (`index` miss / illegal direction). -/
def pushAux (d : Cardinal) : Nat → List Piece → List Piece → Option (List Piece)
  | _, pieces, [] => some pieces
  | 0, _, _ :: _ => none
  | fuel + 1, pieces, old :: queue =>
    match old.movePiece d with
    | none => none
    | some np =>
      match replaceFirst pieces old np with
      | none => none
      | some pieces' => pushAux d fuel pieces' (scanEnqueue np pieces' queue)

/-- `State._push`, run with fuel `pieces.length`: for collision-free states the
loop dequeues each piece at most once, so this fuel is exact (see the claim on
push termination). -/
def State.push (s : State) (p : Piece) (d : Cardinal) : Option (List Piece) :=
  pushAux d s.pieces.length s.pieces [p]

/-- `State._push_without_collision`: move the piece and substitute it for every
piece sharing its id. -/
def State.pushWithoutCollision (s : State) (p : Piece) (d : Cardinal) :
    Option (List Piece) :=
  (p.movePiece d).map (fun np => s.pieces.map (fun q => if q.id == np.id then np else q))

/-- `State.move`: vertical directions replace the piece without propagation;
horizontal directions run the push-propagation loop. -/
def State.move (s : State) (p : Piece) (d : Cardinal) : Option State :=
  if d = .UP ∨ d = .DOWN then (s.pushWithoutCollision p d).map State.mk
  else (s.push p d).map State.mk

/-- `State.undo`: move the piece in the opposite direction. -/
def State.undo (s : State) (p : Piece) (d : Cardinal) : Option State :=
  s.move p d.opposite

/-- Python list indexing used by `board[row][column] = ...`: negative indices
wrap once from the end, other out-of-range indices raise (`none`). -/
def pyIndex (n : Nat) (i : Int) : Option Nat :=
  if 0 ≤ i ∧ i < n then some i.toNat
  else if -(n : Int) ≤ i ∧ i < 0 then some ((n : Int) + i).toNat
  else none

/-- `board[position.row][position.column] = character`. -/
def setCell (b : List (List String)) (r c : Int) (v : String) :
    Option (List (List String)) :=
  match pyIndex b.length r with
  | none => none
  | some ri =>
    match b[ri]? with
    | none => none
    | some row =>
      match pyIndex row.length c with
      | none => none
      | some ci => some (b.set ri (row.set ci v))

/-- Paint one piece's cells onto the board, in position order. -/
def paintPiece (b : List (List String)) (p : Piece) : Option (List (List String)) :=
  p.positions.foldlM (fun b pos => setCell b pos.row pos.column (p.character pos)) b

/-- The empty `Wave.COUNT × Wave.LENGTH` board of `'-'` cells. -/
def initBoard : List (List String) :=
  List.replicate 8 (List.replicate 9 "-")

/-- `State.__str__`: paint every piece onto the gap-filled board (later pieces
overwrite earlier ones) and join rows with newlines. -/
def State.render (s : State) : Option String :=
  (s.pieces.foldlM paintPiece initBoard).map
    (fun b => String.intercalate "\n" (b.map (fun row => String.join row)))

/-- The `state_map` dict: insertion-ordered keys with `Optional[Move]` values
(`None` for the initial state). -/
abbrev SMap := List (State × Option Move)

/-- Dict membership (`new_state not in self.state_map`): Python `dict` lookup
uses `==`, i.e. `State.seq`. -/
def mapContains (m : SMap) (s : State) : Bool :=
  m.any (fun e => State.seq e.1 s)

/-- Dict lookup (`self.state_map[current]`); `none` is a `KeyError`. -/
def mapLookup (m : SMap) (s : State) : Option (Option Move) :=
  (m.find? (fun e => State.seq e.1 s)).map (fun e => e.2)

/-- `BreadthFirstSearch.get_ordered_pieces`: move the most recently moved piece
(when the current state has a recorded move) to the front of the piece list.
`none` models the `KeyError`/`StopIteration` that a malformed map would raise. -/
def orderedPieces (cur : State) (m : SMap) : Option (List Piece) :=
  match mapLookup m cur with
  | none => none
  | some none => some cur.pieces
  | some (some mv) =>
    match cur.findPiece mv.piece_id with
    | none => none
    | some lp => some (lp :: cur.pieces.eraseP (fun q => Piece.peq q lp))

/-- The `(piece, direction)` pairs tried when expanding a state, in loop order. -/
def candidates (ps : List Piece) : List (Piece × Cardinal) :=
  ps.flatMap (fun p => p.directionsList.map (fun d => (p, d)))

/-- Outcome of expanding one dequeued state over its candidate list. -/
inductive ExpandResult
  | found (s : State) (q : List State) (m : SMap)
  | next (q : List State) (m : SMap)
  | err
deriving Repr

/-- The two nested `for` loops in `find_solved_state`: generate each successor,
silently discard it when invalid or already visited, otherwise enqueue it,
record its move, and return it immediately when solved. `err` models any raised
exception (illegal direction, missing red boat, empty-board `ValueError`,
push nontermination). -/
def expandCands (cur : State) :
    List (Piece × Cardinal) → List State → SMap → ExpandResult
  | [], q, m => .next q m
  | (p, d) :: rest, q, m =>
    match cur.move p d with
    | none => .err
    | some s' =>
      match s'.isValidE with
      | none => .err
      | some valid =>
        if valid && !(mapContains m s') then
          let q' := q ++ [s']
          let m' := m ++ [(s', some ⟨p.id, d, 1⟩)]
          match s'.isSolvedE with
          | none => .err
          | some true => .found s' q' m'
          | some false => expandCands cur rest q' m'
        else expandCands cur rest q m

/-- Result of `find_solved_state`: the solved state together with the final
`state_map`, the `Puzzle has no solution.` exception, fuel exhaustion, or a
modelled runtime exception. -/
inductive BfsOutcome
  | found (s : State) (m : SMap)
  | noSolution
  | outOfFuel
  | err
deriving Repr

/-- The `while len(self.queue) > 0:` loop of `find_solved_state`, with fuel
bounding the number of dequeues. -/
def bfsAux : Nat → List State → SMap → BfsOutcome
  | _, [], _ => .noSolution
  | 0, _ :: _, _ => .outOfFuel
  | fuel + 1, cur :: rest, m =>
    match orderedPieces cur m with
    | none => .err
    | some ps =>
      match expandCands cur (candidates ps) rest m with
      | .err => .err
      | .found s _ m' => .found s m'
      | .next q' m' => bfsAux fuel q' m'

/-- `BreadthFirstSearch.find_solved_state` started from the initial state:
queue seeded with it, map seeded with `{initial: None}`. -/
def findSolvedState (fuel : Nat) (s0 : State) : BfsOutcome :=
  bfsAux fuel [s0] [(s0, none)]

/-- Result of `MoveGenerator.generate`: the move list, a `KeyError` on the
state map, fuel exhaustion of the `while` loop, or another modelled exception. -/
inductive GenResult
  | ok (moves : List Move)
  | keyError
  | outOfFuel
  | err
deriving DecidableEq, Repr

/-- One merge-or-prepend step of `MoveGenerator.generate`:
`moves[0].merge(previous_move)` when they share id and direction, otherwise
`moves.insert(0, previous_move)`. -/
def insertMove (prev : Move) : List Move → List Move
  | [] => [prev]
  | m0 :: rest =>
    if m0.canMergeWith prev then ⟨m0.piece_id, m0.direction, m0.distance + prev.distance⟩ :: rest
    else prev :: m0 :: rest

/-- The `while current_state != self.initial_state:` loop of
`MoveGenerator.generate`, with fuel. Each iteration looks up the recorded move
of the current state (`KeyError` when absent), merges or prepends it, and undoes
it to walk one step towards the initial state. -/
def generateAux (m : SMap) (init : State) :
    Nat → State → List Move → GenResult
  | fuel, cur, moves =>
    if State.seq cur init then .ok moves
    else
      match fuel with
      | 0 => .outOfFuel
      | fuel + 1 =>
        match mapLookup m cur with
        | none => .keyError
        | some none => .err
        | some (some prev) =>
          let moves' := insertMove prev moves
          match cur.findPiece prev.piece_id with
          | none => .err
          | some piece =>
            match cur.undo piece prev.direction with
            | none => .err
            | some cur' => generateAux m init fuel cur' moves'

/-- Verification instrumentation: the number of iterations of the
`MoveGenerator.generate` loop (the number of undo steps on the reconstructed
path), following exactly the recursion of `generateAux`. -/
def walkLenAux (m : SMap) (init : State) :
    Nat → State → Option Nat
  | fuel, cur =>
    if State.seq cur init then some 0
    else
      match fuel with
      | 0 => none
      | fuel + 1 =>
        match mapLookup m cur with
        | none => none
        | some none => none
        | some (some prev) =>
          match cur.findPiece prev.piece_id with
          | none => none
          | some piece =>
            match cur.undo piece prev.direction with
            | none => none
            | some cur' => (walkLenAux m init fuel cur').map (fun k => k + 1)

/-- `MoveGenerator.generate`: the move list is seeded with the fixed final step
`Move(Boat.RED_BOAT_ID, Cardinal.DOWN, 2)` before walking back from the final
state. -/
def generate (m : SMap) (init final : State) (fuel : Nat) : GenResult :=
  generateAux m init fuel final [⟨RED_BOAT_ID, .DOWN, 2⟩]

/-- `Solution.move_count`: the sum of the distances of the moves. -/
def moveCount (moves : List Move) : Nat :=
  (moves.map (fun mv => mv.distance)).sum

/-- `Solution.step_count`: the number of (merged) moves. -/
def stepCount (moves : List Move) : Nat :=
  moves.length

/-- Result of `Puzzle.solve`. -/
inductive SolveResult
  | ok (moves : List Move)
  | noSolution
  | keyError
  | outOfFuel
  | err
deriving DecidableEq, Repr

/-- `Puzzle.solve`: run the breadth-first search from the initial state, then
reconstruct the move list with `MoveGenerator.generate`. -/
def solve (bfsFuel genFuel : Nat) (s0 : State) : SolveResult :=
  match findSolvedState bfsFuel s0 with
  | .noSolution => .noSolution
  | .outOfFuel => .outOfFuel
  | .err => .err
  | .found final m =>
    match generate m s0 final genFuel with
    | .ok moves => .ok moves
    | .keyError => .keyError
    | .outOfFuel => .outOfFuel
    | .err => .err

/-! ## Concrete board instances used to settle the claims -/

/-- An empty wave (a row of the input with no `'#'` blocks). -/
def wEmpty (i : String) : Piece := ⟨.wave, i, []⟩

/-- Initial state of an already-solved input: the red boat sits at the port
(front `(7,5)`, tail `(6,5)`) and is walled in — wave 6 blocks `(5,5)` and
wave 8 blocks columns 4 and 6 of row 7, and both waves are pinned by blocks in
columns 0 and 8 so that no piece has a valid move. -/
def sWalled : State := ⟨[wEmpty "1", wEmpty "2", wEmpty "3", wEmpty "4", wEmpty "5",
  ⟨.wave, "6", [⟨5, 0⟩, ⟨5, 5⟩, ⟨5, 8⟩]⟩, wEmpty "7",
  ⟨.wave, "8", [⟨7, 0⟩, ⟨7, 4⟩, ⟨7, 6⟩, ⟨7, 8⟩]⟩,
  ⟨.boat, "X", [⟨7, 5⟩, ⟨6, 5⟩]⟩]⟩

/-- Initial state of an input whose only block is a wave-8 one at `(7,3)`:
moving wave 8 RIGHT pushes the red boat from column 4 into the port. -/
def sPush : State := ⟨[wEmpty "1", wEmpty "2", wEmpty "3", wEmpty "4", wEmpty "5",
  wEmpty "6", wEmpty "7", ⟨.wave, "8", [⟨7, 3⟩]⟩, ⟨.boat, "X", [⟨7, 4⟩, ⟨6, 4⟩]⟩]⟩

/-- Initial state of a board with no blocks and the red boat one cell above the
port: a single DOWN move solves it. -/
def sOneStep : State := ⟨[wEmpty "1", wEmpty "2", wEmpty "3", wEmpty "4", wEmpty "5",
  wEmpty "6", wEmpty "7", wEmpty "8", ⟨.boat, "X", [⟨6, 5⟩, ⟨5, 5⟩]⟩]⟩

/-- The red boat of `sOneStep`. -/
def xOneStep : Piece := ⟨.boat, "X", [⟨6, 5⟩, ⟨5, 5⟩]⟩

/-- The solved state reached from `sOneStep` by one DOWN move. -/
def sOneStepFinal : State := ⟨[wEmpty "1", wEmpty "2", wEmpty "3", wEmpty "4", wEmpty "5",
  wEmpty "6", wEmpty "7", wEmpty "8", ⟨.boat, "X", [⟨7, 5⟩, ⟨6, 5⟩]⟩]⟩

/-- A two-piece board: a wave block at `(5,3)` directly right of a length-1
boat at `(5,2)`. Moving the wave LEFT pushes the boat. -/
def sRev : State := ⟨[⟨.wave, "1", [⟨5, 3⟩]⟩, ⟨.boat, "A", [⟨5, 2⟩]⟩]⟩

/-- The wave of `sRev`. -/
def wRev : Piece := ⟨.wave, "1", [⟨5, 3⟩]⟩

/-- `sRev` after moving its wave LEFT: the wave is at `(5,2)` and the boat was
pushed to `(5,1)`. -/
def sRevL : State := ⟨[⟨.wave, "1", [⟨5, 2⟩]⟩, ⟨.boat, "A", [⟨5, 1⟩]⟩]⟩

/-- The moved wave of `sRevL`. -/
def wRevL : Piece := ⟨.wave, "1", [⟨5, 2⟩]⟩

/-- `sRevL` after moving its wave back RIGHT: the wave returned to `(5,3)` but
the boat stayed at `(5,1)`. -/
def sRevLR : State := ⟨[⟨.wave, "1", [⟨5, 3⟩]⟩, ⟨.boat, "A", [⟨5, 1⟩]⟩]⟩

/-- The intermediate state of the `sOneStep` search: the red boat moved UP. -/
def sOneStepUp : State := ⟨[wEmpty "1", wEmpty "2", wEmpty "3", wEmpty "4", wEmpty "5",
  wEmpty "6", wEmpty "7", wEmpty "8", ⟨.boat, "X", [⟨5, 5⟩, ⟨4, 5⟩]⟩]⟩

/-- The `state_map` produced by the breadth-first search on `sOneStep`. -/
def mOneStep : SMap :=
  [(sOneStep, none),
   (sOneStepUp, some ⟨"X", .UP, 1⟩),
   (sOneStepFinal, some ⟨"X", .DOWN, 1⟩)]

/-- A single-piece state holding the boat `A` at `(0,0)`. -/
def s5KindA : State := ⟨[⟨.boat, "A", [⟨0, 0⟩]⟩]⟩

/-- A single-piece state holding a wave with the boat-like id `A` at `(0,0)`:
Python-equal to `s5KindA` but rendered differently. -/
def s5KindB : State := ⟨[⟨.wave, "A", [⟨0, 0⟩]⟩]⟩

/-- Wave then boat. -/
def s5Perm1 : State := ⟨[⟨.wave, "1", [⟨0, 0⟩]⟩, ⟨.boat, "A", [⟨1, 1⟩]⟩]⟩

/-- The same two pieces in the opposite order: renders like `s5Perm1` but is a
different (and Python-unequal) state. -/
def s5Perm2 : State := ⟨[⟨.boat, "A", [⟨1, 1⟩]⟩, ⟨.wave, "1", [⟨0, 0⟩]⟩]⟩

/-- A state with a single non-red boat `A`, front `(0,0)`, tail `(0,1)`. -/
def s6Boat : State := ⟨[⟨.boat, "A", [⟨0, 0⟩, ⟨0, 1⟩]⟩]⟩

/-- `s6Boat` after moving boat `A` up: out of bounds, hence invalid. -/
def s6BoatUp : State := ⟨[⟨.boat, "A", [⟨-1, 0⟩, ⟨-1, 1⟩]⟩]⟩

/-! ## Claim counterexamples (concrete executions of the embedded engine) -/

/-- C1, counterexample: on the blockless board `sOneStep` a single valid DOWN
move of the red boat reaches a solved state, yet `Puzzle.solve` returns the
solution `XD3` with move count 3 — the returned move count is not the minimal
number of unit moves (the fixed `XD2` step is always prepended), refuting the
claim that `solve` returns a solution of minimal move count. -/
theorem claim1_counterexample :
    xOneStep ∈ sOneStep.pieces ∧
    sOneStep.move xOneStep .DOWN = some sOneStepFinal ∧
    sOneStepFinal.isValidE = some true ∧
    sOneStepFinal.isSolvedE = some true ∧
    solve 100 100 sOneStep = .ok [⟨"X", .DOWN, 3⟩] ∧
    moveCount [⟨"X", .DOWN, 3⟩] = 3 := by
  refine ⟨?_, rfl, rfl, rfl, rfl, rfl⟩
  simp [sOneStep, xOneStep, wEmpty]

/-- C2, counterexample: on `sOneStep` the solved state is found at BFS depth 1
(the reconstructed path from the final state has exactly one unit move), yet the
generated Solution is `XD3` with `move_count() = 3 ≠ 1`, because the move list
is seeded with the fixed `XD2` step. -/
theorem claim2_counterexample :
    findSolvedState 100 sOneStep = .found sOneStepFinal mOneStep ∧
    walkLenAux mOneStep sOneStep 100 sOneStepFinal = some 1 ∧
    generate mOneStep sOneStep sOneStepFinal 100 = .ok [⟨"X", .DOWN, 3⟩] ∧
    moveCount [⟨"X", .DOWN, 3⟩] = 3 := by
  exact ⟨rfl, rfl, rfl, rfl⟩

/-- C3, counterexample: `sWalled` is an initial state whose red boat already
sits at the port (front `(7,5)`, tail `(6,5)`), but `solve` raises
`Puzzle has no solution.` instead of returning a 0-step, 0-move Solution: the
dequeued initial state is never tested with `is_solved`, only freshly inserted
successors are. -/
theorem claim3_counterexample :
    sWalled.isSolvedE = some true ∧
    sWalled.isValidE = some true ∧
    solve 100 100 sWalled = .noSolution := by
  exact ⟨rfl, rfl, rfl⟩

/-- C4, counterexample: on `sRev` (wave block at `(5,3)`, boat at `(5,2)`)
moving the wave LEFT pushes the boat; moving the wave back RIGHT does not pull
the boat back. All three states are valid, yet the round trip renders
differently from the original state. -/
theorem claim4_counterexample :
    wRev ∈ sRev.pieces ∧
    sRev.isValidE = some true ∧
    sRev.move wRev .LEFT = some sRevL ∧
    sRevL.isValidE = some true ∧
    sRevL.move wRevL .RIGHT = some sRevLR ∧
    sRevLR.isValidE = some true ∧
    sRevLR.render ≠ sRev.render := by
  refine ⟨?_, rfl, rfl, rfl, rfl, rfl, ?_⟩
  · simp [sRev, wRev]
  · decide

/-- C5, counterexample: Python `State` equality is `NamedTuple` tuple equality,
not render equality. `s5KindA`/`s5KindB` (a boat and a wave with the same id
and cells) are equal — and hence the same search node — yet render differently;
`s5Perm1`/`s5Perm2` (the same pieces in swapped order) render identically yet
are unequal. -/
theorem claim5_counterexample :
    State.seq s5KindA s5KindB = true ∧
    s5KindA ≠ s5KindB ∧
    s5KindA.render ≠ s5KindB.render ∧
    State.seq s5Perm1 s5Perm2 = false ∧
    s5Perm1 ≠ s5Perm2 ∧
    s5Perm1.render = s5Perm2.render := by
  refine ⟨rfl, ?_, ?_, rfl, ?_, ?_⟩ <;> decide

/-- C6, counterexample: the front cell of a non-red boat renders as the
uppercase id, not the lowercase one: boat `A` with front `(0,0)` renders `"A"`
there, and the full grid of `s6Boat` starts with `"AA"`. -/
theorem claim6_counterexample :
    Piece.character ⟨.boat, "A", [⟨0, 0⟩, ⟨0, 1⟩]⟩ ⟨0, 0⟩ = "A" ∧
    ("A" : String) ≠ "a" ∧
    s6Boat.render = some ("AA-------\n---------\n---------\n---------\n"
      ++ "---------\n---------\n---------\n---------") := by
  refine ⟨rfl, ?_, rfl⟩
  decide

/-- C8, counterexample: `State.move` on a wave with a vertical direction does
not return a state with the wave translated — `Piece.move` raises `ValueError`
because UP is not an allowed wave direction. -/
theorem claim8_counterexample :
    State.move ⟨[⟨.wave, "1", [⟨3, 3⟩]⟩]⟩ ⟨.wave, "1", [⟨3, 3⟩]⟩ .UP = none := by
  rfl

/-- C9, counterexample: on `sPush` the final BFS move is a wave push that
carried the red boat into the port; undoing it does not pull the boat back, the
resulting state was never visited, and `MoveGenerator.generate` raises a
`KeyError` that escapes `Puzzle.solve` — an operational failure other than
`no solution`. -/
theorem claim9_counterexample :
    solve 100 100 sPush = .keyError := by
  rfl

/-! ## Basic lemmas about Python equality -/

theorem peq_refl (p : Piece) : Piece.peq p p = true := by
  simp [Piece.peq]

theorem peq_true_iff (p q : Piece) :
    Piece.peq p q = true ↔ p.id = q.id ∧ p.positions = q.positions := by
  simp [Piece.peq]

theorem peq_symm (p q : Piece) (h : Piece.peq p q = true) : Piece.peq q p = true := by
  rw [peq_true_iff] at h ⊢
  exact ⟨h.1.symm, h.2.symm⟩

theorem seq_list_iff (l₁ l₂ : List Piece) :
    ((l₁.length == l₂.length) && (l₁.zip l₂).all (fun q => Piece.peq q.1 q.2)) = true ↔
      List.Forall₂ (fun a b => Piece.peq a b = true) l₁ l₂ := by
  induction l₁ generalizing l₂ with
  | nil =>
    cases l₂ <;> simp
  | cons a l₁ ih =>
    cases l₂ with
    | nil => simp
    | cons b l₂ =>
      simp only [List.zip_cons_cons, List.all_cons, List.forall₂_cons, List.length_cons,
        Bool.and_eq_true, beq_iff_eq, Nat.add_right_cancel_iff]
      constructor
      · rintro ⟨hl, hab, hrest⟩
        exact ⟨hab, (ih l₂).1 (by simp [hl, hrest])⟩
      · rintro ⟨hab, hrest⟩
        have := (ih l₂).2 hrest
        simp only [Bool.and_eq_true, beq_iff_eq] at this
        exact ⟨this.1, hab, this.2⟩

theorem seq_true_iff (s t : State) :
    State.seq s t = true ↔
      List.Forall₂ (fun a b => Piece.peq a b = true) s.pieces t.pieces :=
  seq_list_iff s.pieces t.pieces

theorem seq_refl (s : State) : State.seq s s = true := by
  rw [seq_true_iff]
  exact List.forall₂_same.2 (fun p _ => peq_refl p)

theorem seq_symm (s t : State) (h : State.seq s t = true) : State.seq t s = true := by
  rw [seq_true_iff] at h ⊢
  exact (h.imp (fun {a b} hab => peq_symm a b hab)).flip

theorem seq_of_eq (s t : State) (h : s = t) : State.seq s t = true := h ▸ seq_refl s

/-! ## Lemmas about the visited map -/

theorem mapContains_append (m m' : SMap) (s : State) :
    mapContains (m ++ m') s = (mapContains m s || mapContains m' s) := by
  simp [mapContains, List.any_append]

theorem or_false_left {a b : Bool} (h : (a || b) = false) : a = false := by
  cases a
  · rfl
  · simp at h

theorem expand_map_extends (cur : State) (cands : List (Piece × Cardinal))
    (q : List State) (m : SMap) :
    (∀ s q' m', expandCands cur cands q m = .found s q' m' → ∃ ext, m' = m ++ ext) ∧
    (∀ q' m', expandCands cur cands q m = .next q' m' → ∃ ext, m' = m ++ ext) := by
  induction cands generalizing q m with
  | nil =>
    constructor
    · intro s q' m' h
      cases h
    · intro q' m' h
      cases h
      exact ⟨[], by simp⟩
  | cons c rest ih =>
    obtain ⟨p, d⟩ := c
    constructor
    · intro s q' m' h
      simp only [expandCands] at h
      rcases hm : cur.move p d with _ | s' <;> rw [hm] at h <;> (try dsimp only at h)
      · cases h
      rcases hv : s'.isValidE with _ | valid <;> rw [hv] at h <;> (try dsimp only at h)
      · cases h
      by_cases hc : (valid && !mapContains m s') = true
      · rw [if_pos hc] at h
        rcases hs : s'.isSolvedE with _ | b <;> rw [hs] at h <;> (try dsimp only at h)
        · cases h
        cases b <;> (try dsimp only at h)
        · obtain ⟨ext, hext⟩ := (ih _ _).1 _ _ _ h
          exact ⟨_ :: ext, by simpa using hext⟩
        · cases h
          exact ⟨[_], rfl⟩
      · rw [if_neg hc] at h
        exact (ih _ _).1 _ _ _ h
    · intro q' m' h
      simp only [expandCands] at h
      rcases hm : cur.move p d with _ | s' <;> rw [hm] at h <;> (try dsimp only at h)
      · cases h
      rcases hv : s'.isValidE with _ | valid <;> rw [hv] at h <;> (try dsimp only at h)
      · cases h
      by_cases hc : (valid && !mapContains m s') = true
      · rw [if_pos hc] at h
        rcases hs : s'.isSolvedE with _ | b <;> rw [hs] at h <;> (try dsimp only at h)
        · cases h
        cases b <;> (try dsimp only at h)
        · obtain ⟨ext, hext⟩ := (ih _ _).2 _ _ h
          exact ⟨_ :: ext, by simpa using hext⟩
        · cases h
      · rw [if_neg hc] at h
        exact (ih _ _).2 _ _ h

theorem expand_found_fresh (cur : State) (cands : List (Piece × Cardinal))
    (q : List State) (m : SMap) (s : State) (q' : List State) (m' : SMap)
    (h : expandCands cur cands q m = .found s q' m') :
    s.isSolvedE = some true ∧ mapContains m s = false := by
  induction cands generalizing q m with
  | nil => cases h
  | cons c rest ih =>
    obtain ⟨p, d⟩ := c
    simp only [expandCands] at h
    rcases hm : cur.move p d with _ | s' <;> rw [hm] at h <;> (try dsimp only at h)
    · cases h
    rcases hv : s'.isValidE with _ | valid <;> rw [hv] at h <;> (try dsimp only at h)
    · cases h
    by_cases hc : (valid && !mapContains m s') = true
    · rw [if_pos hc] at h
      rcases hs : s'.isSolvedE with _ | b <;> rw [hs] at h <;> (try dsimp only at h)
      · cases h
      cases b <;> (try dsimp only at h)
      · have := ih _ _ h
        refine ⟨this.1, ?_⟩
        have h2 := this.2
        rw [mapContains_append] at h2
        simpa using or_false_left h2
      · cases h
        refine ⟨hs, ?_⟩
        simp only [Bool.and_eq_true] at hc
        simpa using hc.2
    · rw [if_neg hc] at h
      exact ih _ _ h

theorem bfs_found_fresh (fuel : Nat) (q : List State) (m : SMap)
    (s : State) (m' : SMap) (h : bfsAux fuel q m = .found s m') :
    s.isSolvedE = some true ∧ mapContains m s = false := by
  induction fuel generalizing q m with
  | zero =>
    cases q <;> simp only [bfsAux] at h <;> cases h
  | succ fuel ih =>
    cases q with
    | nil => cases h
    | cons cur rest =>
      simp only [bfsAux] at h
      rcases ho : orderedPieces cur m with _ | ps <;> rw [ho] at h <;> (try dsimp only at h)
      · cases h
      rcases he : expandCands cur (candidates ps) rest m with ⟨s₁, q₁, m₁⟩ | ⟨q₁, m₁⟩ | _ <;>
        rw [he] at h <;> (try dsimp only at h)
      · cases h
        exact expand_found_fresh _ _ _ _ _ _ _ he
      · have := ih _ _ h
        obtain ⟨ext, hext⟩ := (expand_map_extends cur (candidates ps) rest m).2 _ _ he
        refine ⟨this.1, ?_⟩
        have h2 := this.2
        rw [hext, mapContains_append] at h2
        simpa using or_false_left h2
      · cases h

/-! ## Claim theorems: C3 (amended), C8 (amended), C10 -/

/-- C3, amended: the search never recognizes the dequeued initial state itself
as solved — every state returned by `find_solved_state` is a solved state that
was freshly inserted as a successor, hence is distinct (as a Python value) from
the initial state; an already-solved initial input therefore never yields the
0-step, 0-move Solution the claim promises. -/
theorem claim3_initial_never_returned (fuel : Nat) (s0 s : State) (m' : SMap)
    (h : findSolvedState fuel s0 = .found s m') :
    s.isSolvedE = some true ∧ State.seq s s0 = false ∧ s ≠ s0 := by
  have := bfs_found_fresh fuel [s0] [(s0, none)] s m' h
  have hcontains := this.2
  have hseq : State.seq s0 s = false := by
    simpa [mapContains] using hcontains
  have hseq' : State.seq s s0 = false := by
    by_contra hne
    have : State.seq s s0 = true := by
      cases hb : State.seq s s0
      · exact absurd hb hne
      · rfl
    rw [seq_symm s s0 this] at hseq
    cases hseq
  refine ⟨this.1, hseq', ?_⟩
  rintro rfl
  rw [seq_refl s] at hseq'
  cases hseq'

/-- Witness for C3 (amended) at the concrete instance `sPush`. -/
theorem claim3_witness :
    State.isSolvedE ⟨[wEmpty "1", wEmpty "2", wEmpty "3", wEmpty "4", wEmpty "5",
      wEmpty "6", wEmpty "7", ⟨.wave, "8", [⟨7, 4⟩]⟩,
      ⟨.boat, "X", [⟨7, 5⟩, ⟨6, 5⟩]⟩]⟩ = some true ∧
    State.seq ⟨[wEmpty "1", wEmpty "2", wEmpty "3", wEmpty "4", wEmpty "5",
      wEmpty "6", wEmpty "7", ⟨.wave, "8", [⟨7, 4⟩]⟩,
      ⟨.boat, "X", [⟨7, 5⟩, ⟨6, 5⟩]⟩]⟩ sPush = false ∧
    (⟨[wEmpty "1", wEmpty "2", wEmpty "3", wEmpty "4", wEmpty "5",
      wEmpty "6", wEmpty "7", ⟨.wave, "8", [⟨7, 4⟩]⟩,
      ⟨.boat, "X", [⟨7, 5⟩, ⟨6, 5⟩]⟩]⟩ : State) ≠ sPush :=
  claim3_initial_never_returned 100 sPush _ _ rfl

/-- C8, amended: for a piece that allows the vertical direction (every boat
does; waves raise `ValueError` instead, see the counterexample), `State.move`
returns, with no validity check, the state in which that piece is replaced by
its translate and every other piece is unchanged. -/
theorem claim8_vertical_frame (s : State) (p : Piece) (d : Cardinal)
    (hp : p ∈ s.pieces) (hids : (s.pieces.map Piece.id).Nodup)
    (hd : d = .UP ∨ d = .DOWN) (hallow : d ∈ p.directionsList) :
    s.move p d =
      some ⟨s.pieces.map
        (fun q => if q = p then ⟨p.kind, p.id, d.transform p.positions⟩ else q)⟩ := by
  have hmv : p.movePiece d = some ⟨p.kind, p.id, d.transform p.positions⟩ := by
    simp [Piece.movePiece, hallow]
  simp only [State.move, if_pos hd, State.pushWithoutCollision, hmv, Option.map_some']
  congr 2
  apply List.map_congr_left
  intro q hq
  by_cases hqe : q = p
  · subst hqe
    simp
  · have : q.id ≠ p.id := by
      intro hid
      exact hqe (List.inj_on_of_nodup_map hids hq hp hid)
    simp [this, hqe]

/-- Witness for C8 (amended) at the concrete instance `sOneStep`. -/
theorem claim8_witness :
    sOneStep.move xOneStep .DOWN =
      some ⟨sOneStep.pieces.map
        (fun q => if q = xOneStep then
          ⟨xOneStep.kind, xOneStep.id, Cardinal.DOWN.transform xOneStep.positions⟩
          else q)⟩ :=
  claim8_vertical_frame sOneStep xOneStep .DOWN (by simp [sOneStep, xOneStep, wEmpty])
    (by decide) (Or.inr rfl) (by decide)

/-- C10: `State.is_valid` returns a boolean whenever some piece occupies at
least one cell, but on a state with no occupied cells at all the
`zip(*...)`-unpacking in `has_piece_out_of_bounds` raises `ValueError`
(modelled as `none`) instead of returning a value. -/
theorem claim10_is_valid_totality (s : State) :
    (s.allPositions = [] → s.isValidE = none) ∧
    (s.allPositions ≠ [] → ∃ b, s.isValidE = some b) := by
  constructor
  · intro h
    have hcol : s.hasCollision = false := by
      simp [State.hasCollision, h]
    simp [State.isValidE, hcol, State.hasPieceOutOfBoundsE, h]
  · intro h
    by_cases hcol : s.hasCollision
    · exact ⟨false, by simp [State.isValidE, hcol]⟩
    · rcases hap : s.allPositions with _ | ⟨p, ps⟩
      · exact absurd hap h
      rcases hb : s.hasPieceOutOfBoundsE with _ | b
      · rw [State.hasPieceOutOfBoundsE, hap] at hb
        cases hb
      · exact ⟨!b, by simp [State.isValidE, hcol, hb]⟩

/-- Witness for C10: a board of a single empty wave raises; `sOneStep` returns
a boolean. -/
theorem claim10_witness :
    State.isValidE ⟨[⟨.wave, "1", []⟩]⟩ = none ∧
    ∃ b, sOneStep.isValidE = some b :=
  ⟨(claim10_is_valid_totality ⟨[⟨.wave, "1", []⟩]⟩).1 rfl,
   (claim10_is_valid_totality sOneStep).2 (by decide)⟩

/-! ## Claim C5 (amended): Python state equality is structural, not render-based -/

theorem forall2_eq_of_kinds (l₁ l₂ : List Piece)
    (h : List.Forall₂ (fun a b => a.id = b.id ∧ a.positions = b.positions) l₁ l₂)
    (hk : l₁.map (fun p => p.kind) = l₂.map (fun p => p.kind)) : l₁ = l₂ := by
  induction h with
  | nil => rfl
  | @cons a b l₁' l₂' hab hrest ih =>
    simp only [List.map_cons, List.cons.injEq] at hk
    have hab' : a = b := by
      obtain ⟨ka, ia, pa⟩ := a
      obtain ⟨kb, ib, pb⟩ := b
      dsimp only at hab hk
      simp [hab.1, hab.2, hk.1]
    rw [hab', ih hk.2]

/-- C5, amended: `State` equality and hashing are the Python `NamedTuple` tuple
equality — structural over the ordered piece tuple's `(id, positions)` pairs
and blind to the Boat/Wave class — not equality of renderings. Equality implies
identical renderings only when the corresponding pieces also agree on their
class (in which case the states coincide); in general neither direction of the
claimed equivalence holds (see the counterexample). -/
theorem claim5_structural_equality :
    (∀ s t : State, State.seq s t = true ↔
      List.Forall₂ (fun a b => a.id = b.id ∧ a.positions = b.positions)
        s.pieces t.pieces) ∧
    (∀ s t : State, State.seq s t = true →
      s.pieces.map (fun p => p.kind) = t.pieces.map (fun p => p.kind) →
      s = t ∧ s.render = t.render) := by
  constructor
  · intro s t
    rw [seq_true_iff]
    constructor
    · exact fun h => h.imp (fun {a b} hab => (peq_true_iff a b).1 hab)
    · exact fun h => h.imp (fun {a b} hab => (peq_true_iff a b).2 hab)
  · intro s t hseq hk
    have h := (seq_true_iff s t).1 hseq
    have h' := h.imp (fun {a b} hab => (peq_true_iff a b).1 hab)
    have : s.pieces = t.pieces := forall2_eq_of_kinds _ _ h' hk
    have hst : s = t := by
      cases s; cases t; simpa using this
    exact ⟨hst, by rw [hst]⟩

/-- Witness for C5 (amended) at the concrete state `s5Perm1`. -/
theorem claim5_witness :
    s5Perm1 = s5Perm1 ∧ s5Perm1.render = s5Perm1.render :=
  claim5_structural_equality.2 s5Perm1 s5Perm1 (seq_refl s5Perm1) rfl

/-! ## Claim C6 (amended): rendering characters -/

/-- A cell position inside the `Wave.COUNT × Wave.LENGTH` board. -/
def posInBounds (pos : Position) : Prop :=
  0 ≤ pos.row ∧ pos.row < 8 ∧ 0 ≤ pos.column ∧ pos.column < 9

instance (pos : Position) : Decidable (posInBounds pos) := by
  unfold posInBounds
  infer_instance

/-- An 8-row board whose rows all have 9 cells. -/
def rectBoard (b : List (List String)) : Prop :=
  b.length = 8 ∧ ∀ row ∈ b, row.length = 9

/-- The character the painted board holds at a position. -/
def cellAt (b : List (List String)) (pos : Position) : Option String :=
  (b[pos.row.toNat]?).bind (fun row => row[pos.column.toNat]?)

theorem initBoard_rect : rectBoard initBoard := by
  constructor
  · rfl
  · intro row hrow
    rw [List.eq_of_mem_replicate hrow]
    rfl

theorem cellAt_initBoard (pos : Position) (h : posInBounds pos) :
    cellAt initBoard pos = some "-" := by
  obtain ⟨h1, h2, h3, h4⟩ := h
  have hr : pos.row.toNat < 8 := by omega
  have hc : pos.column.toNat < 9 := by omega
  rw [cellAt, initBoard, List.getElem?_replicate, if_pos hr]
  rw [Option.some_bind]
  rw [List.getElem?_replicate, if_pos hc]

theorem setCell_spec (b : List (List String)) (pos : Position) (v : String)
    (hb : rectBoard b) (hpos : posInBounds pos) :
    ∃ b', setCell b pos.row pos.column v = some b' ∧ rectBoard b' ∧
      cellAt b' pos = some v ∧
      ∀ pos', posInBounds pos' → pos' ≠ pos → cellAt b' pos' = cellAt b pos' := by
  obtain ⟨hlen, hrows⟩ := hb
  obtain ⟨h1, h2, h3, h4⟩ := hpos
  have hrt : pos.row.toNat < b.length := by omega
  have hpy1 : pyIndex b.length pos.row = some pos.row.toNat := by
    rw [pyIndex, if_pos]
    omega
  have hrowmem : b[pos.row.toNat] ∈ b := List.getElem_mem hrt
  have hrowlen : b[pos.row.toNat].length = 9 := hrows _ hrowmem
  have hct : pos.column.toNat < b[pos.row.toNat].length := by omega
  have hpy2 : pyIndex (b[pos.row.toNat]).length pos.column = some pos.column.toNat := by
    rw [pyIndex, if_pos]
    omega
  refine ⟨b.set pos.row.toNat ((b[pos.row.toNat]).set pos.column.toNat v), ?_, ?_, ?_, ?_⟩
  · rw [setCell, hpy1]
    try dsimp only
    rw [List.getElem?_eq_getElem hrt]
    try dsimp only
    rw [hpy2]
  · constructor
    · simp [hlen]
    · intro r hr
      rcases List.mem_or_eq_of_mem_set hr with hmem | rfl
      · exact hrows _ hmem
      · simp [hrowlen]
  · rw [cellAt]
    rw [List.getElem?_set_eq_of_lt _ hrt]
    rw [Option.some_bind]
    exact List.getElem?_set_eq_of_lt _ hct
  · intro pos' hpos' hne
    obtain ⟨g1, g2, g3, g4⟩ := hpos'
    by_cases hrdiff : pos'.row.toNat = pos.row.toNat
    · have hreq : pos'.row = pos.row := by omega
      have hcne : pos'.column ≠ pos.column := by
        intro hceq
        exact hne (by cases pos; cases pos'; simp_all)
      have hcnat : pos.column.toNat ≠ pos'.column.toNat := by omega
      rw [cellAt, cellAt, hrdiff, List.getElem?_set_eq_of_lt _ hrt,
        List.getElem?_eq_getElem hrt]
      rw [Option.some_bind, Option.some_bind]
      rw [List.getElem?_set_ne hcnat]
    · rw [cellAt, cellAt, List.getElem?_set_ne (fun h => hrdiff h.symm)]

theorem paintPiece_spec (p : Piece) (b : List (List String))
    (hb : rectBoard b) (hpos : ∀ pos ∈ p.positions, posInBounds pos)
    (hnd : p.positions.Nodup) :
    ∃ b', paintPiece b p = some b' ∧ rectBoard b' ∧
      (∀ pos ∈ p.positions, cellAt b' pos = some (p.character pos)) ∧
      (∀ pos', posInBounds pos' → pos' ∉ p.positions →
        cellAt b' pos' = cellAt b pos') := by
  rw [paintPiece]
  obtain ⟨l, hl⟩ : ∃ l, p.positions = l := ⟨p.positions, rfl⟩
  rw [hl] at hpos hnd ⊢
  clear hl
  induction l generalizing b with
  | nil =>
    exact ⟨b, rfl, hb, by simp, fun pos' _ _ => rfl⟩
  | cons pos rest ih =>
    obtain ⟨b₁, hset, hrect₁, hcell₁, hframe₁⟩ :=
      setCell_spec b pos (p.character pos) hb (hpos pos (by simp))
    have hrest : ∀ q ∈ rest, posInBounds q := fun q hq => hpos q (by simp [hq])
    obtain ⟨b', hfold, hrect', hcells', hframe'⟩ :=
      ih b₁ hrect₁ hnd.of_cons hrest
    refine ⟨b', ?_, hrect', ?_, ?_⟩
    · rw [List.foldlM_cons, hset]
      exact hfold
    · intro q hq
      rcases List.mem_cons.1 hq with rfl | hq'
      · have hnotin : q ∉ rest := (List.nodup_cons.1 hnd).1
        rw [hframe' q (hpos q (by simp)) hnotin]
        exact hcell₁
      · exact hcells' q hq'
    · intro pos' hpos' hnotin
      rw [hframe' pos' hpos' (fun h => hnotin (by simp [h]))]
      exact hframe₁ pos' hpos' (fun h => hnotin (by simp [h]))

theorem paintFold_spec (ps : List Piece) (b : List (List String))
    (hb : rectBoard b)
    (hpos : ∀ p ∈ ps, ∀ pos ∈ p.positions, posInBounds pos)
    (hnd : (ps.flatMap (fun p => p.positions)).Nodup) :
    ∃ b', ps.foldlM paintPiece b = some b' ∧ rectBoard b' ∧
      (∀ p ∈ ps, ∀ pos ∈ p.positions, cellAt b' pos = some (p.character pos)) ∧
      (∀ pos', posInBounds pos' → pos' ∉ ps.flatMap (fun p => p.positions) →
        cellAt b' pos' = cellAt b pos') := by
  induction ps generalizing b with
  | nil =>
    exact ⟨b, rfl, hb, by simp, fun pos' _ _ => rfl⟩
  | cons p rest ih =>
    rw [List.flatMap_cons, List.nodup_append] at hnd
    obtain ⟨hndp, hndrest, hdisj⟩ := hnd
    obtain ⟨b₁, hpaint, hrect₁, hcells₁, hframe₁⟩ :=
      paintPiece_spec p b hb (hpos p (by simp)) hndp
    obtain ⟨b', hfold, hrect', hcells', hframe'⟩ :=
      ih b₁ hrect₁ (fun q hq => hpos q (by simp [hq])) hndrest
    refine ⟨b', ?_, hrect', ?_, ?_⟩
    · rw [List.foldlM_cons, hpaint]
      exact hfold
    · intro q hq pos hpos'
      rcases List.mem_cons.1 hq with rfl | hq'
      · have hnotin : pos ∉ rest.flatMap (fun r => r.positions) := by
          intro hmem
          exact hdisj hpos' hmem
        rw [hframe' pos (hpos q (by simp) pos hpos') hnotin]
        exact hcells₁ pos hpos'
      · exact hcells' q hq' pos hpos'
    · intro pos' hpos' hnotin
      rw [List.flatMap_cons, List.mem_append] at hnotin
      push_neg at hnotin
      rw [hframe' pos' hpos' hnotin.2]
      exact hframe₁ pos' hpos' hnotin.1

/-- C6, amended: in the rendered grid of a collision-free in-bounds state,
every wave cell shows `'#'`, every uncovered cell shows `'-'`, and every boat
cell shows the boat's id — lowercased only at the front cell of the red boat
`'X'`; the front cells of all other boats show the plain (uppercase) id, not a
lowercase letter. -/
theorem claim6_render_characters (s : State)
    (hcol : s.hasCollision = false)
    (hbounds : ∀ pos ∈ s.allPositions, posInBounds pos) :
    ∃ b, s.pieces.foldlM paintPiece initBoard = some b ∧
      s.render = some (String.intercalate "\n" (b.map (fun row => String.join row))) ∧
      (∀ p ∈ s.pieces, ∀ pos ∈ p.positions, cellAt b pos = some (p.character pos)) ∧
      (∀ pos, posInBounds pos → pos ∉ s.allPositions → cellAt b pos = some "-") ∧
      (∀ p ∈ s.pieces, p.kind = .wave → ∀ pos, p.character pos = "#") ∧
      (∀ p ∈ s.pieces, p.kind = .boat → ∀ pos, p.character pos =
        if p.id = RED_BOAT_ID ∧ p.positions.head? = some pos then "x" else p.id) := by
  have hnd : s.allPositions.Nodup := by
    rw [State.hasCollision] at hcol
    have hlen : s.allPositions.length = s.allPositions.dedup.length := by
      have := hcol
      simp only [bne_eq_false_iff_eq] at this
      exact this
    rw [← List.dedup_eq_self]
    exact List.Sublist.eq_of_length (List.dedup_sublist _) hlen.symm
  obtain ⟨b, hfold, _, hcells, hframe⟩ :=
    paintFold_spec s.pieces initBoard initBoard_rect
      (fun p hp pos hpos => hbounds pos (List.mem_flatMap.2 ⟨p, hp, hpos⟩))
      hnd
  refine ⟨b, hfold, ?_, hcells, ?_, ?_, ?_⟩
  · rw [State.render, hfold]
    rfl
  · intro pos hinb hnotin
    rw [hframe pos hinb hnotin]
    exact cellAt_initBoard pos hinb
  · intro p _ hk pos
    rw [Piece.character, hk]
  · intro p _ hk pos
    rw [Piece.character, hk]
    dsimp only
    by_cases hx : p.id = RED_BOAT_ID ∧ p.positions.head? = some pos
    · rw [if_pos hx, if_pos]
      simp [hx.1, hx.2]
    · rw [if_neg hx, if_neg]
      intro hcontra
      simp only [Bool.and_eq_true, beq_iff_eq] at hcontra
      exact hx ⟨hcontra.1, hcontra.2⟩

/-- Witness for C6 (amended) at the concrete state `s6Boat`. -/
theorem claim6_witness :
    ∃ b, s6Boat.pieces.foldlM paintPiece initBoard = some b ∧
      s6Boat.render = some (String.intercalate "\n" (b.map (fun row => String.join row))) ∧
      (∀ p ∈ s6Boat.pieces, ∀ pos ∈ p.positions, cellAt b pos = some (p.character pos)) ∧
      (∀ pos, posInBounds pos → pos ∉ s6Boat.allPositions → cellAt b pos = some "-") ∧
      (∀ p ∈ s6Boat.pieces, p.kind = .wave → ∀ pos, p.character pos = "#") ∧
      (∀ p ∈ s6Boat.pieces, p.kind = .boat → ∀ pos, p.character pos =
        if p.id = RED_BOAT_ID ∧ p.positions.head? = some pos then "x" else p.id) :=
  claim6_render_characters s6Boat rfl (by decide)

/-! ## Claim C4 (amended): exact reversibility without push propagation -/

theorem transform_opposite (d : Cardinal) (ps : List Position) :
    d.opposite.transform (d.transform ps) = ps := by
  cases d <;>
  · rw [Cardinal.transform, Cardinal.transform, List.map_map]
    conv_rhs => rw [← List.map_id ps]
    apply List.map_congr_left
    intro pos _
    cases pos
    simp only [Function.comp_apply, Position.add, Cardinal.delta, Cardinal.opposite, id,
      Position.mk.injEq]
    omega

theorem horizontal_allowed (q : Piece) (d : Cardinal)
    (hd : d = .LEFT ∨ d = .RIGHT) : d ∈ q.directionsList := by
  rcases hd with rfl | rfl <;> rcases h : q.kind <;> simp [Piece.directionsList, h]

theorem collidesWith_self (p : Piece) : Piece.collidesWith p p = false := by
  simp [Piece.collidesWith]

theorem ids_map_replace (l : List Piece) (p np : Piece) (hid : np.id = p.id) :
    (l.map (fun q => if q = p then np else q)).map Piece.id = l.map Piece.id := by
  rw [List.map_map]
  apply List.map_congr_left
  intro q _
  by_cases h : q = p
  · simp [h, hid]
  · simp [h]

theorem replace_not_mem (l : List Piece) (p np : Piece) (hp : p ∉ l) :
    l.map (fun q => if q = p then np else q) = l := by
  conv_rhs => rw [← List.map_id l]
  apply List.map_congr_left
  intro q hq
  have : q ≠ p := fun h => hp (h ▸ hq)
  simp [this]

theorem replaceFirst_nodup_ids (l : List Piece) (p np : Piece)
    (hp : p ∈ l) (hids : (l.map Piece.id).Nodup) :
    replaceFirst l p np = some (l.map (fun q => if q = p then np else q)) := by
  induction l with
  | nil => cases hp
  | cons q rest ih =>
    by_cases hpeq : Piece.peq q p = true
    · have hq : q = p := by
        have hqid : q.id = p.id := ((peq_true_iff q p).1 hpeq).1
        exact List.inj_on_of_nodup_map hids (by simp) hp hqid
      subst hq
      have hnotin : q ∉ rest := by
        intro hmem
        simp only [List.map_cons, List.nodup_cons] at hids
        exact hids.1 (List.mem_map.2 ⟨q, hmem, rfl⟩)
      rw [replaceFirst, if_pos hpeq]
      simp [replace_not_mem rest q np hnotin]
    · have hq : q ≠ p := by
        rintro rfl
        exact hpeq (peq_refl q)
      have hp' : p ∈ rest := by
        rcases List.mem_cons.1 hp with rfl | h
        · exact absurd rfl hq
        · exact h
      rw [replaceFirst, if_neg (by simpa using hpeq)]
      rw [ih hp' (by simpa [List.map_cons, List.nodup_cons] using hids.of_cons)]
      simp [hq]

theorem scanEnqueue_no_collisions (np : Piece) (ps : List Piece) (q : List Piece)
    (h : ∀ other ∈ ps, np.collidesWith other = false) :
    scanEnqueue np ps q = q := by
  rw [scanEnqueue]
  induction ps generalizing q with
  | nil => rfl
  | cons x rest ih =>
    rw [List.foldl_cons]
    rw [h x (by simp), Bool.and_false, if_neg (by simp)]
    exact ih q (fun other ho => h other (by simp [ho]))

theorem replace_replace_back (l : List Piece) (p np : Piece)
    (hids : (l.map Piece.id).Nodup) (hp : p ∈ l) (hid : np.id = p.id) :
    (l.map (fun q => if q = p then np else q)).map
      (fun q => if q = np then p else q) = l := by
  rw [List.map_map]
  conv_rhs => rw [← List.map_id l]
  apply List.map_congr_left
  intro q hq
  by_cases h : q = p
  · simp [h]
  · have hqnp : q ≠ np := by
      intro hqe
      have : q.id = p.id := by rw [hqe, hid]
      exact h (List.inj_on_of_nodup_map hids hq hp this)
    simp [h, hqnp]

theorem pieces_disjoint (l : List Piece)
    (hnd : (l.flatMap (fun r => r.positions)).Nodup) (p q : Piece)
    (hp : p ∈ l) (hq : q ∈ l) (hne : p ≠ q) :
    ∀ pos ∈ p.positions, pos ∉ q.positions := by
  induction l with
  | nil => cases hp
  | cons x rest ih =>
    rw [List.flatMap_cons, List.nodup_append] at hnd
    obtain ⟨hx, hrest, hdisj⟩ := hnd
    rcases List.mem_cons.1 hp with rfl | hp'
    · rcases List.mem_cons.1 hq with rfl | hq'
      · exact absurd rfl hne
      · intro pos hpos hqpos
        exact hdisj hpos (List.mem_flatMap.2 ⟨q, hq', hqpos⟩)
    · rcases List.mem_cons.1 hq with rfl | hq'
      · intro pos hpos hqpos
        exact hdisj hqpos (List.mem_flatMap.2 ⟨p, hp', hpos⟩)
      · exact ih hrest hp' hq'

theorem collidesWith_of_disjoint (a b : Piece)
    (h : ∀ pos ∈ a.positions, pos ∉ b.positions) :
    Piece.collidesWith a b = false := by
  rw [Piece.collidesWith]
  cases hk : (a.kind != b.kind)
  · rfl
  · rw [Bool.true_and]
    rw [List.any_eq_false]
    intro pos hpos
    simpa using h pos hpos

/-- A horizontal move that pushes nothing: the moved piece is replaced and no
other piece is scanned into the work queue, so the result is the pointwise
replacement. -/
theorem push_no_collision (s : State) (p : Piece) (d : Cardinal)
    (hp : p ∈ s.pieces) (hids : (s.pieces.map Piece.id).Nodup)
    (hd : d = .LEFT ∨ d = .RIGHT)
    (hnc : ∀ q ∈ s.pieces.map (fun q => if q = p then
        (⟨p.kind, p.id, d.transform p.positions⟩ : Piece) else q),
      Piece.collidesWith ⟨p.kind, p.id, d.transform p.positions⟩ q = false) :
    s.move p d =
      some ⟨s.pieces.map (fun q => if q = p then
        ⟨p.kind, p.id, d.transform p.positions⟩ else q)⟩ := by
  have hdne : ¬(d = .UP ∨ d = .DOWN) := by
    rcases hd with rfl | rfl <;> rintro (h | h) <;> cases h
  rw [State.move, if_neg hdne, State.push]
  rcases hlen : s.pieces.length with _ | n
  · rw [List.length_eq_zero] at hlen
    rw [hlen] at hp
    cases hp
  rw [pushAux]
  rw [show p.movePiece d = some ⟨p.kind, p.id, d.transform p.positions⟩ by
    simp [Piece.movePiece, horizontal_allowed p d hd]]
  dsimp only
  rw [replaceFirst_nodup_ids s.pieces p _ hp hids]
  dsimp only
  rw [scanEnqueue_no_collisions _ _ _ hnc]
  rw [pushAux]
  rfl

/-- C4, amended: move/undo reversibility holds exactly (same state, hence the
same rendering) for vertical moves, and for horizontal moves whose push
propagates to no other piece; when the push does move another piece the
round trip does not restore the board (see the counterexample). -/
theorem claim4_undo_restores :
    (∀ (s : State) (p : Piece) (d : Cardinal),
      p ∈ s.pieces → (s.pieces.map Piece.id).Nodup →
      (d = .UP ∨ d = .DOWN) → d ∈ p.directionsList →
      ∃ s', s.move p d = some s' ∧
        s'.move ⟨p.kind, p.id, d.transform p.positions⟩ d.opposite = some s ∧
        s.render = s.render) ∧
    (∀ (s : State) (p : Piece) (d : Cardinal),
      p ∈ s.pieces → (s.pieces.map Piece.id).Nodup →
      s.hasCollision = false → (d = .LEFT ∨ d = .RIGHT) →
      (∀ q ∈ s.pieces, q ≠ p →
        Piece.collidesWith ⟨p.kind, p.id, d.transform p.positions⟩ q = false) →
      ∃ s', s.move p d = some s' ∧
        s'.move ⟨p.kind, p.id, d.transform p.positions⟩ d.opposite = some s ∧
        s.render = s.render) := by
  constructor
  · intro s p d hp hids hd hallow
    set np : Piece := ⟨p.kind, p.id, d.transform p.positions⟩ with hnp
    refine ⟨⟨s.pieces.map (fun q => if q = p then np else q)⟩,
      claim8_vertical_frame s p d hp hids hd hallow, ?_, rfl⟩
    have hop : d.opposite = .UP ∨ d.opposite = .DOWN := by
      rcases hd with rfl | rfl
      · exact Or.inr rfl
      · exact Or.inl rfl
    have hnpmem : np ∈ s.pieces.map (fun q => if q = p then np else q) :=
      List.mem_map.2 ⟨p, hp, by simp⟩
    have hids' : ((s.pieces.map (fun q => if q = p then np else q)).map Piece.id).Nodup := by
      rw [ids_map_replace s.pieces p np rfl]
      exact hids
    have hallow' : d.opposite ∈ np.directionsList := by
      have : np.directionsList = p.directionsList := rfl
      rw [this]
      rcases hop with h | h <;> rw [h] <;>
      · rcases hk : p.kind <;> simp [Piece.directionsList, hk] <;>
          rcases hd with rfl | rfl <;> simp_all [Piece.directionsList]
    have := claim8_vertical_frame ⟨s.pieces.map (fun q => if q = p then np else q)⟩
      np d.opposite hnpmem hids' hop hallow'
    rw [this]
    congr 1
    have hback : (⟨np.kind, np.id, d.opposite.transform np.positions⟩ : Piece) = p := by
      rw [hnp]
      dsimp only
      rw [transform_opposite]
    rw [hback]
    congr 1
    exact replace_replace_back s.pieces p np hids hp rfl
  · intro s p d hp hids hcol hd hnc
    set np : Piece := ⟨p.kind, p.id, d.transform p.positions⟩ with hnp
    have hnd : s.allPositions.Nodup := by
      rw [State.hasCollision] at hcol
      have hlen : s.allPositions.length = s.allPositions.dedup.length := by
        simpa only [bne_eq_false_iff_eq] using hcol
      rw [← List.dedup_eq_self]
      exact List.Sublist.eq_of_length (List.dedup_sublist _) hlen.symm
    have hnc' : ∀ q ∈ s.pieces.map (fun q => if q = p then np else q),
        Piece.collidesWith np q = false := by
      intro q hq
      obtain ⟨q₀, hq₀, hq₀e⟩ := List.mem_map.1 hq
      by_cases hqp : q₀ = p
      · rw [hqp] at hq₀e
        simp only [if_pos rfl] at hq₀e
        rw [← hq₀e]
        exact collidesWith_self np
      · rw [if_neg hqp] at hq₀e
        rw [← hq₀e]
        exact hnc q₀ hq₀ hqp
    refine ⟨⟨s.pieces.map (fun q => if q = p then np else q)⟩,
      push_no_collision s p d hp hids hd hnc', ?_, rfl⟩
    have hop : d.opposite = .LEFT ∨ d.opposite = .RIGHT := by
      rcases hd with rfl | rfl
      · exact Or.inr rfl
      · exact Or.inl rfl
    have hnpmem : np ∈ s.pieces.map (fun q => if q = p then np else q) :=
      List.mem_map.2 ⟨p, hp, by simp⟩
    have hids' : ((s.pieces.map (fun q => if q = p then np else q)).map Piece.id).Nodup := by
      rw [ids_map_replace s.pieces p np rfl]
      exact hids
    have hback : (⟨np.kind, np.id, d.opposite.transform np.positions⟩ : Piece) = p := by
      rw [hnp]
      dsimp only
      rw [transform_opposite]
    have hrepl := replace_replace_back s.pieces p np hids hp rfl
    have hnc'' : ∀ q ∈ (s.pieces.map (fun q => if q = p then np else q)).map
        (fun q => if q = np
          then (⟨np.kind, np.id, d.opposite.transform np.positions⟩ : Piece) else q),
        Piece.collidesWith ⟨np.kind, np.id, d.opposite.transform np.positions⟩ q
          = false := by
      rw [hback, hrepl]
      intro q hq
      by_cases hqp : q = p
      · rw [hqp]
        exact collidesWith_self p
      · exact collidesWith_of_disjoint p q
          (pieces_disjoint s.pieces hnd p q hp hq (fun h => hqp h.symm))
    have := push_no_collision ⟨s.pieces.map (fun q => if q = p then np else q)⟩
      np d.opposite hnpmem hids' hop hnc''
    rw [this, hback, hrepl]

/-- Witness for C4 (amended): moving the wave of `sRev` RIGHT pushes nothing,
and moving it back LEFT restores the state exactly. -/
theorem claim4_witness :
    ∃ s', sRev.move wRev .RIGHT = some s' ∧
      s'.move ⟨wRev.kind, wRev.id, Cardinal.RIGHT.transform wRev.positions⟩
        Cardinal.RIGHT.opposite = some sRev ∧ sRev.render = sRev.render :=
  claim4_undo_restores.2 sRev wRev .RIGHT (by simp [sRev, wRev]) (by decide) rfl
    (Or.inr rfl) (by decide)

/-! ## Claim C7: termination of push propagation, each piece moved at most once -/

/-- Verification instrumentation: `pushAux` recording each dequeued piece. -/
def pushAuxTrace (d : Cardinal) :
    Nat → List Piece → List Piece → List Piece → Option (List Piece × List Piece)
  | _, pieces, [], tr => some (pieces, tr)
  | 0, _, _ :: _, _ => none
  | fuel + 1, pieces, old :: queue, tr =>
    match old.movePiece d with
    | none => none
    | some np =>
      match replaceFirst pieces old np with
      | none => none
      | some pieces' =>
        pushAuxTrace d fuel pieces' (scanEnqueue np pieces' queue) (tr ++ [old])

theorem pushAuxTrace_erase (d : Cardinal) (fuel : Nat) :
    ∀ (pieces queue tr : List Piece),
      pushAux d fuel pieces queue = (pushAuxTrace d fuel pieces queue tr).map Prod.fst := by
  induction fuel with
  | zero =>
    intro pieces queue tr
    cases queue <;> rfl
  | succ f ih =>
    intro pieces queue tr
    cases queue with
    | nil => rfl
    | cons old rest =>
      rcases hm : old.movePiece d with _ | np
      · simp [pushAux, pushAuxTrace, hm]
      rcases hr : replaceFirst pieces old np with _ | pieces'
      · simp [pushAux, pushAuxTrace, hm, hr]
      · simp only [pushAux, pushAuxTrace, hm, hr]
        exact ih _ _ _

/-- The translated copy of a piece (what `Piece.move` returns on success). -/
def mvp (d : Cardinal) (q : Piece) : Piece := ⟨q.kind, q.id, d.transform q.positions⟩

theorem movePiece_horizontal (q : Piece) (d : Cardinal)
    (hd : d = .LEFT ∨ d = .RIGHT) : q.movePiece d = some (mvp d q) := by
  simp [Piece.movePiece, horizontal_allowed q d hd, mvp]

theorem transform_disjoint (d : Cardinal) (A B : List Position)
    (h : ∀ pos ∈ A, pos ∉ B) :
    ∀ pos ∈ d.transform A, pos ∉ d.transform B := by
  intro pos hpos hpos'
  rw [Cardinal.transform, List.mem_map] at hpos hpos'
  obtain ⟨a, ha, rfl⟩ := hpos
  obtain ⟨b, hb, hab⟩ := hpos'
  have hba : b = a := by
    cases a
    cases b
    cases d <;>
    · simp only [Position.add, Cardinal.delta, Position.mk.injEq] at hab ⊢
      omega
  exact h a ha (hba ▸ hb)

/-- The number of pieces not yet moved (loop-termination measure). -/
def countFalse (flags : List Bool) : Nat := (flags.filter (fun b => !b)).length

theorem countFalse_cons (b : Bool) (l : List Bool) :
    countFalse (b :: l) = (if b then 0 else 1) + countFalse l := by
  cases b <;> simp [countFalse, List.filter_cons] <;> omega

theorem countFalse_replicate (n : Nat) : countFalse (List.replicate n false) = n := by
  induction n with
  | zero => rfl
  | succ k ih =>
    rw [List.replicate_succ, countFalse_cons, ih]
    simp only [Bool.false_eq_true, if_false]
    omega

theorem countFalse_set (flags : List Bool) (i : Nat) (hi : i < flags.length)
    (hf : flags[i] = false) : countFalse (flags.set i true) + 1 = countFalse flags := by
  induction flags generalizing i with
  | nil => cases hi
  | cons b rest ih =>
    cases i with
    | zero =>
      simp only [List.getElem_cons_zero] at hf
      subst hf
      simp [List.set_cons_zero, countFalse_cons]
      omega
    | succ j =>
      simp only [List.getElem_cons_succ] at hf
      have hj : j < rest.length := by simpa using hi
      rw [List.set_cons_succ, countFalse_cons, countFalse_cons]
      have := ih j hj hf
      omega

theorem countFalse_pos (flags : List Bool) (i : Nat) (hi : i < flags.length)
    (hf : flags[i] = false) : 0 < countFalse flags := by
  have hmem : (false : Bool) ∈ flags := by
    rw [← hf]
    exact flags.getElem_mem hi
  have hmf : (false : Bool) ∈ flags.filter (fun b => !b) :=
    List.mem_filter.2 ⟨hmem, rfl⟩
  rcases hfl : flags.filter (fun b => !b) with _ | ⟨x, xs⟩
  · rw [hfl] at hmf
    cases hmf
  · rw [countFalse, hfl]
    simp

theorem replaceFirst_at_index (l : List Piece) (old np : Piece) :
    ∀ (i : Nat) (hi : i < l.length),
      (∀ j (hj : j < l.length), j < i → Piece.peq l[j] old = false) →
      Piece.peq l[i] old = true →
      replaceFirst l old np = some (l.set i np) := by
  induction l with
  | nil =>
    intro i hi
    cases hi
  | cons x rest ih =>
    intro i hi hfirst hmatch
    cases i with
    | zero =>
      simp only [List.getElem_cons_zero] at hmatch
      rw [replaceFirst, if_pos hmatch, List.set_cons_zero]
    | succ j =>
      have hx : Piece.peq x old = false := hfirst 0 (by simp) (by omega)
      rw [replaceFirst, if_neg (by simp [hx])]
      rw [ih j (by simpa using hi)
        (fun k hk hki => hfirst (k + 1) (by simpa using hk) (by omega))
        (by simpa using hmatch)]
      rw [List.set_cons_succ]
      rfl

theorem nodup_subset_length {α : Type} [DecidableEq α] (l₁ l₂ : List α)
    (h : l₁.Nodup) (hs : l₁ ⊆ l₂) : l₁.length ≤ l₂.length := by
  calc l₁.length = l₁.toFinset.card := (List.toFinset_card_of_nodup h).symm
  _ ≤ l₂.toFinset.card := Finset.card_le_card (fun x hx => by
      rw [List.mem_toFinset] at hx ⊢
      exact hs hx)
  _ ≤ l₂.length := l₂.toFinset_card_le

theorem isValidE_true_no_collision (s : State) (h : s.isValidE = some true) :
    s.hasCollision = false := by
  by_cases hc : s.hasCollision
  · rw [State.isValidE, if_pos hc] at h
    cases h
  · simpa using hc

theorem nodup_positions_of_no_collision (s : State) (h : s.hasCollision = false) :
    s.allPositions.Nodup := by
  rw [State.hasCollision] at h
  have hlen : s.allPositions.length = s.allPositions.dedup.length := by
    simpa only [bne_eq_false_iff_eq] using h
  rw [← List.dedup_eq_self]
  exact List.Sublist.eq_of_length (List.dedup_sublist _) hlen.symm

/-- The working piece list determined by the original list and the set of
already-moved pieces. -/
def curOf (d : Cardinal) (flags : List Bool) (P : List Piece) : List Piece :=
  List.zipWith (fun b q => if b = true then mvp d q else q) flags P

theorem curOf_length (d : Cardinal) (flags : List Bool) (P : List Piece)
    (hlen : flags.length = P.length) : (curOf d flags P).length = P.length := by
  rw [curOf, List.length_zipWith, hlen]
  omega

theorem curOf_getElem (d : Cardinal) (flags : List Bool) (P : List Piece)
    (j : Nat) (hjF : j < flags.length) (hjP : j < P.length)
    (hj : j < (curOf d flags P).length) :
    (curOf d flags P)[j] = if flags[j] = true then mvp d (P[j]) else P[j] := by
  simp only [curOf, List.getElem_zipWith]

theorem curOf_replicate_false (d : Cardinal) (P : List Piece) :
    curOf d (List.replicate P.length false) P = P := by
  induction P with
  | nil => rfl
  | cons x rest ih =>
    unfold curOf
    rw [List.length_cons, List.replicate_succ, List.zipWith_cons_cons, if_neg (by simp)]
    exact congrArg (List.cons x) ih

theorem curOf_set (d : Cardinal) (flags : List Bool) (P : List Piece)
    (hlen : flags.length = P.length) (i : Nat) (hi : i < P.length) :
    (curOf d flags P).set i (mvp d (P[i])) = curOf d (flags.set i true) P := by
  have hl1 : (curOf d flags P).length = P.length := curOf_length d flags P hlen
  have hlen' : (flags.set i true).length = P.length := by
    rw [List.length_set]
    exact hlen
  have hl2 : (curOf d (flags.set i true) P).length = P.length := curOf_length d _ P hlen'
  apply List.ext_getElem
  · rw [List.length_set, hl1, hl2]
  · intro j hj1 hj2
    have hjP : j < P.length := by
      rw [hl2] at hj2
      exact hj2
    rw [curOf_getElem d (flags.set i true) P j
      (by rw [List.length_set, hlen]; exact hjP) hjP hj2]
    by_cases hij : j = i
    · subst hij
      have e1 : ((curOf d flags P).set j (mvp d (P[j])))[j] = mvp d (P[j]) :=
        List.getElem_set_self hj1
      rw [e1]
      have hjF : j < (flags.set j true).length := by
        rw [List.length_set, hlen]
        exact hjP
      have e2 : (flags.set j true)[j] = true := List.getElem_set_self hjF
      rw [e2, if_pos rfl]
    · have hjC : j < (curOf d flags P).length := by
        rw [hl1]
        exact hjP
      have e1 : ((curOf d flags P).set i (mvp d (P[i])))[j] =
          (curOf d flags P)[j] :=
        List.getElem_set_ne (fun h => hij h.symm) _
      rw [e1, curOf_getElem d flags P j (by rw [hlen]; exact hjP) hjP
        (by rw [hl1]; exact hjP)]
      have hjF : j < (flags.set i true).length := by
        rw [List.length_set, hlen]
        exact hjP
      have hjFl : j < flags.length := by
        rw [hlen]
        exact hjP
      have e2 : (flags.set i true)[j] = flags[j] :=
        List.getElem_set_ne (fun h => hij h.symm) _
      rw [e2]

theorem peq_false_of_id_ne (a b : Piece) (h : a.id ≠ b.id) : Piece.peq a b = false := by
  cases hp : Piece.peq a b
  · rfl
  · exact absurd ((peq_true_iff a b).1 hp).1 h

theorem ids_getElem_ne (P : List Piece) (hids : (P.map Piece.id).Nodup)
    (i j : Nat) (hi : i < P.length) (hj : j < P.length) (hij : i ≠ j) :
    (P[i]).id ≠ (P[j]).id := by
  intro he
  have hmi : i < (P.map Piece.id).length := by simpa using hi
  have hmj : j < (P.map Piece.id).length := by simpa using hj
  have : (P.map Piece.id)[i] = (P.map Piece.id)[j] := by
    rw [List.getElem_map, List.getElem_map]
    exact he
  exact hij ((List.Nodup.getElem_inj_iff hids).1 this)

theorem scanEnqueue_nil (np : Piece) (q : List Piece) : scanEnqueue np [] q = q := rfl

theorem scanEnqueue_cons (np x : Piece) (rest q : List Piece) :
    scanEnqueue np (x :: rest) q =
      scanEnqueue np rest
        (if !(q.any (fun e => Piece.peq e x)) && np.collidesWith x then q ++ [x]
         else q) := by
  rw [scanEnqueue, List.foldl_cons]
  rfl

theorem scanEnqueue_invariant (d : Cardinal) (P : List Piece)
    (HN : (P.flatMap (fun r => r.positions)).Nodup)
    (hids : (P.map Piece.id).Nodup)
    (flags : List Bool) (_hlen : flags.length = P.length)
    (i : Nat) (hiP : i < P.length) (hiF : i < flags.length) (hfi : flags[i] = true) :
    ∀ (ps q : List Piece),
      (∀ x ∈ ps, ∃ j, ∃ hjP : j < P.length, ∃ hjF : j < flags.length,
        x = if flags[j] = true then mvp d (P[j]) else P[j]) →
      (q.map Piece.id).Nodup →
      (∀ x ∈ q, ∃ j, ∃ hjP : j < P.length, ∃ hjF : j < flags.length,
        flags[j] = false ∧ P[j] = x) →
      ((scanEnqueue (mvp d (P[i])) ps q).map Piece.id).Nodup ∧
      (∀ x ∈ scanEnqueue (mvp d (P[i])) ps q, ∃ j, ∃ hjP : j < P.length,
        ∃ hjF : j < flags.length, flags[j] = false ∧ P[j] = x) := by
  intro ps
  induction ps with
  | nil =>
    intro q _ hqn hq
    rw [scanEnqueue_nil]
    exact ⟨hqn, hq⟩
  | cons x rest ih =>
    intro q hps hqn hq
    rw [scanEnqueue_cons]
    have hrest : ∀ y ∈ rest, ∃ j, ∃ hjP : j < P.length, ∃ hjF : j < flags.length,
        y = if flags[j] = true then mvp d (P[j]) else P[j] :=
      fun y hy => hps y (by simp [hy])
    obtain ⟨j, hjP, hjF, hx⟩ := hps x (by simp)
    by_cases hfj : flags[j] = true
    · have hxm : x = mvp d (P[j]) := by rw [hx, if_pos hfj]
      have hcol : (mvp d (P[i])).collidesWith x = false := by
        by_cases hji : j = i
        · subst hji
          rw [hxm]
          exact collidesWith_self _
        · rw [hxm]
          apply collidesWith_of_disjoint
          exact transform_disjoint d _ _
            (pieces_disjoint P HN (P[i]) (P[j]) (P.getElem_mem hiP) (P.getElem_mem hjP)
              (fun he => ids_getElem_ne P hids i j hiP hjP (fun h => hji h.symm)
                (congrArg Piece.id he)))
      rw [hcol, Bool.and_false, if_neg (by simp)]
      exact ih q hrest hqn hq
    · have hxu : x = P[j] := by rw [hx, if_neg hfj]
      by_cases hcond :
          (!(q.any (fun e => Piece.peq e x)) && (mvp d (P[i])).collidesWith x) = true
      · rw [if_pos hcond]
        have hnotin : ∀ y ∈ q, Piece.peq y x = false := by
          have hany : q.any (fun e => Piece.peq e x) = false := by
            have h1 := (Bool.and_eq_true _ _).mp hcond |>.1
            simpa using h1
          intro y hy
          have hne := List.any_eq_false.1 hany y hy
          cases hb : Piece.peq y x
          · rfl
          · exact absurd hb hne
        have hxid : x.id ∉ q.map Piece.id := by
          intro hmem
          obtain ⟨y, hy, hyid⟩ := List.mem_map.1 hmem
          obtain ⟨k, hkP, hkF, hfk, hPk⟩ := hq y hy
          have hkj : k = j := by
            by_contra hkj
            refine ids_getElem_ne P hids k j hkP hjP hkj ?_
            have e1 : (P[k]).id = y.id := congrArg Piece.id hPk
            have e2 : x.id = (P[j]).id := congrArg Piece.id hxu
            rw [e1, hyid, e2]
          have hyx : y = x := by
            subst hkj
            exact (hxu.trans hPk).symm
          have hfalse := hnotin y hy
          rw [hyx] at hfalse
          rw [peq_refl x] at hfalse
          cases hfalse
        have hqn' : ((q ++ [x]).map Piece.id).Nodup := by
          rw [List.map_append, List.nodup_append]
          refine ⟨hqn, by simp, fun a ha hb => ?_⟩
          have hax : a = x.id := by simpa using hb
          rw [hax] at ha
          exact hxid ha
        have hq' : ∀ y ∈ q ++ [x], ∃ k, ∃ hkP : k < P.length, ∃ hkF : k < flags.length,
            flags[k] = false ∧ P[k] = y := by
          intro y hy
          rcases List.mem_append.1 hy with hy' | hy'
          · exact hq y hy'
          · have hyx : y = x := by simpa using hy'
            subst hyx
            exact ⟨j, hjP, hjF, by simpa using hfj, hxu.symm⟩
        exact ih (q ++ [x]) hrest hqn' hq'
      · rw [if_neg hcond]
        exact ih q hrest hqn hq

theorem curOf_mem_char (d : Cardinal) (flags : List Bool) (P : List Piece)
    (hlen : flags.length = P.length) :
    ∀ x ∈ curOf d flags P, ∃ j, ∃ hjP : j < P.length, ∃ hjF : j < flags.length,
      x = if flags[j] = true then mvp d (P[j]) else P[j] := by
  intro x hx
  obtain ⟨j, hj, hval⟩ := List.mem_iff_getElem.1 hx
  have hjP : j < P.length := by
    rw [curOf_length d flags P hlen] at hj
    exact hj
  have hjF : j < flags.length := by
    rw [hlen]
    exact hjP
  exact ⟨j, hjP, hjF, by rw [← hval, curOf_getElem d flags P j hjF hjP hj]⟩

theorem push_invariant (d : Cardinal) (hd : d = .LEFT ∨ d = .RIGHT)
    (P : List Piece)
    (HN : (P.flatMap (fun r => r.positions)).Nodup)
    (hids : (P.map Piece.id).Nodup) :
    ∀ (fuel : Nat) (flags : List Bool) (queue tr : List Piece),
      flags.length = P.length →
      countFalse flags ≤ fuel →
      (queue.map Piece.id).Nodup →
      (∀ x ∈ queue, ∃ j, ∃ hjP : j < P.length, ∃ hjF : j < flags.length,
        flags[j] = false ∧ P[j] = x) →
      (tr.map Piece.id).Nodup →
      (∀ x ∈ tr, ∃ j, ∃ hjP : j < P.length, ∃ hjF : j < flags.length,
        flags[j] = true ∧ P[j] = x) →
      ∃ res trace,
        pushAuxTrace d fuel (curOf d flags P) queue tr = some (res, trace) ∧
        (trace.map Piece.id).Nodup ∧ (∀ x ∈ trace, x ∈ P) ∧
        ∃ flagsF, flagsF.length = P.length ∧ res = curOf d flagsF P := by
  intro fuel
  induction fuel with
  | zero =>
    intro flags queue tr hlen hfuel hqn hq htn htr
    cases queue with
    | nil =>
      refine ⟨curOf d flags P, tr, rfl, htn, fun x hx => ?_, flags, hlen, rfl⟩
      obtain ⟨j, hjP, hjF, _, hPj⟩ := htr x hx
      exact hPj ▸ P.getElem_mem hjP
    | cons old rest =>
      obtain ⟨j, hjP, hjF, hfj, _⟩ := hq old (by simp)
      have := countFalse_pos flags j hjF hfj
      omega
  | succ f ih =>
    intro flags queue tr hlen hfuel hqn hq htn htr
    cases queue with
    | nil =>
      refine ⟨curOf d flags P, tr, rfl, htn, fun x hx => ?_, flags, hlen, rfl⟩
      obtain ⟨j, hjP, hjF, _, hPj⟩ := htr x hx
      exact hPj ▸ P.getElem_mem hjP
    | cons old rest =>
      obtain ⟨i, hiP, hiF, hfi, hPi⟩ := hq old (by simp)
      subst hPi
      have hlen' : (flags.set i true).length = P.length := by
        rw [List.length_set]
        exact hlen
      have hiF' : i < (flags.set i true).length := by
        rw [List.length_set]
        exact hiF
      have hfi'' : (flags.set i true)[i] = true := List.getElem_set_self hiF'
      have hmv : (P[i]).movePiece d = some (mvp d (P[i])) :=
        movePiece_horizontal _ d hd
      have hcuri : i < (curOf d flags P).length := by
        rw [curOf_length d flags P hlen]
        exact hiP
      have hcur_i : (curOf d flags P)[i] = P[i] := by
        rw [curOf_getElem d flags P i hiF hiP hcuri, if_neg (by simp [hfi])]
      have hfirst : ∀ j (hj : j < (curOf d flags P).length), j < i →
          Piece.peq ((curOf d flags P)[j]) (P[i]) = false := by
        intro j hj hji
        have hjP : j < P.length := by
          rw [curOf_length d flags P hlen] at hj
          exact hj
        have hjF : j < flags.length := by
          rw [hlen]
          exact hjP
        rw [curOf_getElem d flags P j hjF hjP hj]
        have hidne : (P[j]).id ≠ (P[i]).id :=
          ids_getElem_ne P hids j i hjP hiP (by omega)
        by_cases hfj : flags[j] = true
        · rw [if_pos hfj]
          exact peq_false_of_id_ne _ _ hidne
        · rw [if_neg hfj]
          exact peq_false_of_id_ne _ _ hidne
      have hrepl : replaceFirst (curOf d flags P) (P[i]) (mvp d (P[i])) =
          some ((curOf d flags P).set i (mvp d (P[i]))) :=
        replaceFirst_at_index _ _ _ i hcuri hfirst
          (by rw [hcur_i]; exact peq_refl _)
      rw [curOf_set d flags P hlen i hiP] at hrepl
      have hqn' : (rest.map Piece.id).Nodup := by
        have h := hqn
        rw [List.map_cons, List.nodup_cons] at h
        exact h.2
      have hqid : (P[i]).id ∉ rest.map Piece.id := by
        have h := hqn
        rw [List.map_cons, List.nodup_cons] at h
        exact h.1
      have hrest : ∀ x ∈ rest, ∃ j, ∃ hjP : j < P.length,
          ∃ hjF : j < (flags.set i true).length,
          (flags.set i true)[j] = false ∧ P[j] = x := by
        intro x hx
        obtain ⟨k, hkP, hkF, hfk, hPk⟩ := hq x (by simp [hx])
        have hki : k ≠ i := by
          rintro rfl
          refine hqid (List.mem_map.2 ⟨x, hx, ?_⟩)
          rw [← hPk]
        refine ⟨k, hkP, (by rw [List.length_set]; exact hkF), ?_, hPk⟩
        rw [List.getElem_set_ne (fun h => hki h.symm)]
        exact hfk
      obtain ⟨hscan_nodup, hscan_mem⟩ :=
        scanEnqueue_invariant d P HN hids (flags.set i true) hlen' i hiP hiF' hfi''
          (curOf d (flags.set i true) P) rest
          (curOf_mem_char d (flags.set i true) P hlen') hqn' hrest
      have htrn' : ((tr ++ [P[i]]).map Piece.id).Nodup := by
        rw [List.map_append, List.nodup_append]
        refine ⟨htn, by simp, fun a ha hb => ?_⟩
        have hax : a = (P[i]).id := by simpa using hb
        obtain ⟨y, hy, hyid⟩ := List.mem_map.1 ha
        obtain ⟨k, hkP, hkF, hfk, hPk⟩ := htr y hy
        have hki : k = i := by
          by_contra hki
          refine ids_getElem_ne P hids k i hkP hiP hki ?_
          have e1 : (P[k]).id = y.id := congrArg Piece.id hPk
          rw [e1, hyid, hax]
        subst hki
        rw [hfi] at hfk
        cases hfk
      have htr' : ∀ x ∈ tr ++ [P[i]], ∃ j, ∃ hjP : j < P.length,
          ∃ hjF : j < (flags.set i true).length,
          (flags.set i true)[j] = true ∧ P[j] = x := by
        intro x hx
        rcases List.mem_append.1 hx with hx' | hx'
        · obtain ⟨k, hkP, hkF, hfk, hPk⟩ := htr x hx'
          refine ⟨k, hkP, (by rw [List.length_set]; exact hkF), ?_, hPk⟩
          by_cases hki : k = i
          · subst hki
            exact List.getElem_set_self (by rw [List.length_set]; exact hkF)
          · rw [List.getElem_set_ne (fun h => hki h.symm)]
            exact hfk
        · have hxi : x = P[i] := by simpa using hx'
          subst hxi
          exact ⟨i, hiP, hiF', hfi'', rfl⟩
      have hfuel' : countFalse (flags.set i true) ≤ f := by
        have := countFalse_set flags i hiF hfi
        omega
      obtain ⟨res, trace, heq, hnd, hmem, hshape⟩ :=
        ih (flags.set i true)
          (scanEnqueue (mvp d (P[i])) (curOf d (flags.set i true) P) rest)
          (tr ++ [P[i]]) hlen' hfuel' hscan_nodup hscan_mem htrn' htr'
      refine ⟨res, trace, ?_, hnd, hmem, hshape⟩
      simp only [pushAuxTrace]
      rw [hmv]
      dsimp only
      rw [hrepl]
      dsimp only
      exact heq

/-- C7: for every valid state with distinct piece ids, the push-propagation
work-queue loop of `State.move` terminates within one dequeue per piece
(fuel `pieces.length` suffices), and each piece of the state is dequeued — and
hence translated — at most once: the dequeue trace has pairwise distinct piece
ids. -/
theorem claim7_push_terminates (s : State) (p : Piece) (d : Cardinal)
    (hp : p ∈ s.pieces) (hids : (s.pieces.map Piece.id).Nodup)
    (hval : s.isValidE = some true) (hd : d = .LEFT ∨ d = .RIGHT) :
    ∃ res trace,
      pushAuxTrace d s.pieces.length s.pieces [p] [] = some (res, trace) ∧
      (trace.map Piece.id).Nodup ∧ trace.length ≤ s.pieces.length ∧
      s.push p d = some res ∧ s.move p d = some ⟨res⟩ := by
  have hcol := isValidE_true_no_collision s hval
  have HN : (s.pieces.flatMap (fun r => r.positions)).Nodup :=
    nodup_positions_of_no_collision s hcol
  obtain ⟨i, hiP, hPi⟩ := List.mem_iff_getElem.1 hp
  obtain ⟨res, trace, heq, hnd, hmem, hshape⟩ :=
    push_invariant d hd s.pieces HN hids s.pieces.length
      (List.replicate s.pieces.length false) [p] []
      (by simp)
      (by rw [countFalse_replicate])
      (by simp)
      (fun x hx => by
        have hxp : x = p := by simpa using hx
        subst hxp
        exact ⟨i, hiP, (by simpa using hiP), (by simp), hPi⟩)
      (by simp)
      (by simp)
  rw [curOf_replicate_false] at heq
  have hpush : s.push p d = some res := by
    rw [State.push, pushAuxTrace_erase d _ _ _ [], heq]
    rfl
  refine ⟨res, trace, heq, hnd, ?_, hpush, ?_⟩
  · have hle : (trace.map Piece.id).length ≤ (s.pieces.map Piece.id).length :=
      nodup_subset_length _ _ hnd (fun a ha => by
        obtain ⟨x, hx, hxa⟩ := List.mem_map.1 ha
        exact List.mem_map.2 ⟨x, hmem x hx, hxa⟩)
    simpa using hle
  · have hdne : ¬(d = Cardinal.UP ∨ d = Cardinal.DOWN) := by
      rcases hd with rfl | rfl <;> rintro (h | h) <;> cases h
    rw [State.move, if_neg hdne, hpush]
    rfl

/-- Witness for C7 at the concrete pushing instance `sRev`. -/
theorem claim7_witness :
    ∃ res trace,
      pushAuxTrace .LEFT sRev.pieces.length sRev.pieces [wRev] [] = some (res, trace) ∧
      (trace.map Piece.id).Nodup ∧ trace.length ≤ sRev.pieces.length ∧
      sRev.push wRev .LEFT = some res ∧ sRev.move wRev .LEFT = some ⟨res⟩ :=
  claim7_push_terminates sRev wRev .LEFT (by simp [sRev, wRev]) (by decide) rfl
    (Or.inl rfl)

/-! ## Claim C2 (amended): move count = reconstruction walk length + 2 -/

theorem moveCount_insertMove (prev : Move) (acc : List Move) :
    moveCount (insertMove prev acc) = moveCount acc + prev.distance := by
  cases acc with
  | nil => simp [insertMove, moveCount]
  | cons m0 rest =>
    rw [insertMove]
    by_cases hm : m0.canMergeWith prev = true
    · rw [if_pos hm]
      simp [moveCount]
      omega
    · rw [if_neg hm]
      simp [moveCount]
      omega

theorem mapLookup_mem (m : SMap) (s : State) (v : Option Move)
    (h : mapLookup m s = some v) : ∃ e ∈ m, e.2 = v := by
  rw [mapLookup] at h
  obtain ⟨e, he, hev⟩ := Option.map_eq_some'.1 h
  exact ⟨e, List.mem_of_find?_eq_some he, hev⟩

theorem generateAux_sum (m : SMap) (init : State)
    (hdist : ∀ e ∈ m, ∀ mv : Move, e.2 = some mv → mv.distance = 1) :
    ∀ (fuel : Nat) (cur : State) (acc out : List Move) (k : Nat),
      generateAux m init fuel cur acc = .ok out →
      walkLenAux m init fuel cur = some k →
      moveCount out = moveCount acc + k := by
  intro fuel
  induction fuel with
  | zero =>
    intro cur acc out k hgen hwalk
    rw [generateAux] at hgen
    rw [walkLenAux] at hwalk
    by_cases hseq : State.seq cur init = true
    · rw [if_pos hseq] at hgen hwalk
      cases hgen
      cases hwalk
      simp
    · rw [if_neg hseq] at hgen
      cases hgen
  | succ f ih =>
    intro cur acc out k hgen hwalk
    rw [generateAux] at hgen
    rw [walkLenAux] at hwalk
    by_cases hseq : State.seq cur init = true
    · rw [if_pos hseq] at hgen hwalk
      cases hgen
      cases hwalk
      simp
    · rw [if_neg hseq] at hgen hwalk
      rcases hlook : mapLookup m cur with _ | v <;> rw [hlook] at hgen hwalk <;>
        (try dsimp only at hgen hwalk)
      · cases hgen
      rcases v with _ | prev <;> (try dsimp only at hgen hwalk)
      · cases hgen
      rcases hfind : cur.findPiece prev.piece_id with _ | piece <;>
        rw [hfind] at hgen hwalk <;> (try dsimp only at hgen hwalk)
      · cases hgen
      rcases hundo : cur.undo piece prev.direction with _ | cur' <;>
        rw [hundo] at hgen hwalk <;> (try dsimp only at hgen hwalk)
      · cases hgen
      obtain ⟨k', hk', rfl⟩ := Option.map_eq_some'.1 hwalk
      have hdist1 : prev.distance = 1 := by
        obtain ⟨e, he, hev⟩ := mapLookup_mem m cur (some prev) hlook
        exact hdist e he prev hev
      have := ih cur' (insertMove prev acc) out k' hgen hk'
      rw [this, moveCount_insertMove, hdist1]
      omega

/-- C2, amended: the `move_count()` of the Solution that `MoveGenerator`
produces equals the number of undo steps on the reconstructed path **plus 2**:
the move list is seeded with the fixed `XD2` step, so the move count never
equals the BFS depth (which is the number of unit moves on the path). -/
theorem claim2_move_count_depth (m : SMap) (init final : State) (fuel : Nat)
    (moves : List Move) (k : Nat)
    (hdist : ∀ e ∈ m, ∀ mv : Move, e.2 = some mv → mv.distance = 1)
    (hgen : generate m init final fuel = .ok moves)
    (hwalk : walkLenAux m init fuel final = some k) :
    moveCount moves = k + 2 := by
  have hsum := generateAux_sum m init hdist fuel final
    [⟨RED_BOAT_ID, .DOWN, 2⟩] moves k hgen hwalk
  rw [hsum]
  simp [moveCount]
  omega

/-- Witness for C2 (amended) at the concrete instance `sOneStep`: the walk has
one undo step and the Solution `XD3` has move count 3 = 1 + 2. -/
theorem claim2_witness :
    moveCount [(⟨"X", .DOWN, 3⟩ : Move)] = 1 + 2 :=
  claim2_move_count_depth mOneStep sOneStep sOneStepFinal 100
    [⟨"X", .DOWN, 3⟩] 1 (by decide) rfl rfl

/-! ## Claims C1 and C9 (amended): BFS minimal depth and failure semantics -/

/-- One valid unit move of the engine: some piece of `s` and some direction
produce `s'`, and `s'` passes `is_valid`. -/
def StepRel (s s' : State) : Prop :=
  ∃ p ∈ s.pieces, ∃ d : Cardinal, s.move p d = some s' ∧ s'.isValidE = some true

/-- `ReachN s0 n s`: `s` is reached from `s0` by exactly `n` valid unit moves. -/
def ReachN (s0 : State) : Nat → State → Prop
  | 0, s => s = s0
  | n + 1, s => ∃ t, ReachN s0 n t ∧ StepRel t s

/-- `s` is at breadth-first distance exactly `n` from `s0`. -/
def HasDist (s0 : State) (n : Nat) (s : State) : Prop :=
  ReachN s0 n s ∧ ∀ k, ReachN s0 k s → n ≤ k

/-- The pointwise class-and-id skeleton of a state's pieces; it is preserved by
every successful move. -/
def skeleton (s : State) : List (PieceKind × String) :=
  s.pieces.map (fun p => (p.kind, p.id))

/-- Membership of a state among the keys of the visited map (by Lean equality;
for states sharing the initial skeleton this coincides with the Python
`in`-check, see `mapContains_iff_keyMem`). -/
def keyMem (m : SMap) (s : State) : Prop :=
  ∃ e ∈ m, e.1 = s

theorem skeleton_ids (s : State) :
    s.pieces.map Piece.id = (skeleton s).map Prod.snd := by
  rw [skeleton, List.map_map]
  rfl

theorem seq_skeleton_eq (s0 a b : State)
    (ha : skeleton a = skeleton s0) (hb : skeleton b = skeleton s0)
    (h : State.seq a b = true) : a = b := by
  have hk : a.pieces.map (fun p => p.kind) = b.pieces.map (fun p => p.kind) := by
    have e1 : a.pieces.map (fun p => p.kind) = (skeleton a).map Prod.fst := by
      rw [skeleton, List.map_map]
      rfl
    have e2 : b.pieces.map (fun p => p.kind) = (skeleton b).map Prod.fst := by
      rw [skeleton, List.map_map]
      rfl
    rw [e1, e2, ha, hb]
  have hf := (seq_true_iff a b).1 h
  have hf' := hf.imp (fun {x y} hxy => (peq_true_iff x y).1 hxy)
  have : a.pieces = b.pieces := forall2_eq_of_kinds _ _ hf' hk
  cases a
  cases b
  simpa using this

theorem mapContains_iff_keyMem (s0 : State) (m : SMap)
    (hkeys : ∀ e ∈ m, skeleton e.1 = skeleton s0) (x : State)
    (hx : skeleton x = skeleton s0) :
    mapContains m x = true ↔ keyMem m x := by
  rw [mapContains, List.any_eq_true]
  constructor
  · rintro ⟨e, he, hseq⟩
    exact ⟨e, he, seq_skeleton_eq s0 e.1 x (hkeys e he) hx hseq⟩
  · rintro ⟨e, he, heq⟩
    exact ⟨e, he, heq ▸ seq_refl e.1⟩

theorem keyMem_append (m : SMap) (ext : SMap) (x : State) (h : keyMem m x) :
    keyMem (m ++ ext) x := by
  obtain ⟨e, he, heq⟩ := h
  exact ⟨e, List.mem_append.2 (Or.inl he), heq⟩

theorem skeleton_curOf (d : Cardinal) (flags : List Bool) (P : List Piece)
    (hlen : flags.length = P.length) :
    (curOf d flags P).map (fun p => (p.kind, p.id)) =
      P.map (fun p => (p.kind, p.id)) := by
  apply List.ext_getElem
  · rw [List.length_map, List.length_map, curOf_length d flags P hlen]
  · intro j hj1 hj2
    have hjP : j < P.length := by simpa using hj2
    have hjC : j < (curOf d flags P).length := by
      rw [curOf_length d flags P hlen]
      exact hjP
    have hjFl : j < flags.length := by
      rw [hlen]
      exact hjP
    rw [List.getElem_map, List.getElem_map,
      curOf_getElem d flags P j hjFl hjP hjC]
    by_cases hfj : flags[j] = true
    · rw [if_pos hfj]
      rfl
    · rw [if_neg hfj]

theorem move_some_allowed (s : State) (p : Piece) (d : Cardinal) (s' : State)
    (hp : p ∈ s.pieces) (hmv : s.move p d = some s') : d ∈ p.directionsList := by
  by_cases hb : d ∈ p.directionsList
  · exact hb
  · exfalso
    have hmp : p.movePiece d = none := by
      rw [Piece.movePiece, if_neg hb]
    rw [State.move] at hmv
    by_cases hv : d = Cardinal.UP ∨ d = Cardinal.DOWN
    · rw [if_pos hv, State.pushWithoutCollision, hmp] at hmv
      cases hmv
    · rw [if_neg hv, State.push] at hmv
      rcases hlen : s.pieces.length with _ | n
      · rw [List.length_eq_zero] at hlen
        rw [hlen] at hp
        cases hp
      · rw [hlen, pushAux, hmp] at hmv
        cases hmv

theorem move_skeleton (s : State) (p : Piece) (d : Cardinal) (s' : State)
    (hp : p ∈ s.pieces) (hids : (s.pieces.map Piece.id).Nodup)
    (hval : s.isValidE = some true) (hmv : s.move p d = some s') :
    skeleton s' = skeleton s := by
  have hallow : d ∈ p.directionsList := move_some_allowed s p d s' hp hmv
  rw [State.move] at hmv
  by_cases hv : d = Cardinal.UP ∨ d = Cardinal.DOWN
  · rw [if_pos hv, State.pushWithoutCollision] at hmv
    rw [show p.movePiece d = some ⟨p.kind, p.id, d.transform p.positions⟩ by
      simp [Piece.movePiece, hallow]] at hmv
    simp only [Option.map_some'] at hmv
    cases hmv
    rw [skeleton, skeleton]
    dsimp only
    rw [List.map_map]
    apply List.map_congr_left
    intro q hq
    by_cases hqid : q.id = p.id
    · have hqp : q = p := List.inj_on_of_nodup_map hids hq hp hqid
      subst hqp
      simp
    · have : (q.id == p.id) = false := by
        simp [hqid]
      simp [Function.comp, this]
  · have hd' : d = Cardinal.LEFT ∨ d = Cardinal.RIGHT := by
      cases d
      · exact absurd (Or.inl rfl) hv
      · exact absurd (Or.inr rfl) hv
      · exact Or.inl rfl
      · exact Or.inr rfl
    have hcol := isValidE_true_no_collision s hval
    have HN : (s.pieces.flatMap (fun r => r.positions)).Nodup :=
      nodup_positions_of_no_collision s hcol
    obtain ⟨i, hiP, hPi⟩ := List.mem_iff_getElem.1 hp
    obtain ⟨res, trace, heq, _, _, flagsF, hlenF, hres⟩ :=
      push_invariant d hd' s.pieces HN hids s.pieces.length
        (List.replicate s.pieces.length false) [p] []
        (by simp)
        (by rw [countFalse_replicate])
        (by simp)
        (fun x hx => by
          have hxp : x = p := by simpa using hx
          subst hxp
          exact ⟨i, hiP, (by simpa using hiP), (by simp), hPi⟩)
        (by simp)
        (by simp)
    rw [curOf_replicate_false] at heq
    have hpush : s.push p d = some res := by
      rw [State.push, pushAuxTrace_erase d _ _ _ [], heq]
      rfl
    rw [if_neg hv, hpush] at hmv
    simp only [Option.map_some'] at hmv
    cases hmv
    rw [skeleton, skeleton]
    dsimp only
    rw [hres]
    exact skeleton_curOf d flagsF s.pieces hlenF

theorem eraseP_agree (p q : Piece → Bool) :
    ∀ l : List Piece, (∀ x ∈ l, p x = q x) → l.eraseP p = l.eraseP q := by
  intro l
  induction l with
  | nil => intro _; rfl
  | cons x rest ih =>
    intro h
    rw [List.eraseP_cons, List.eraseP_cons, h x (by simp)]
    by_cases hq : q x = true
    · rw [hq]
      simp only [cond_true]
    · rw [Bool.not_eq_true] at hq
      rw [hq]
      simp only [cond_false]
      rw [ih (fun y hy => h y (by simp [hy]))]

theorem orderedPieces_perm (cur : State) (m : SMap) (ps : List Piece)
    (hids : (cur.pieces.map Piece.id).Nodup)
    (h : orderedPieces cur m = some ps) : ps.Perm cur.pieces := by
  rw [orderedPieces] at h
  rcases hl : mapLookup m cur with _ | v <;> rw [hl] at h <;> (try dsimp only at h)
  · cases h
  rcases v with _ | mv <;> (try dsimp only at h)
  · cases h
    exact List.Perm.refl _
  rcases hf : cur.findPiece mv.piece_id with _ | lp <;> rw [hf] at h <;>
    (try dsimp only at h)
  · cases h
  cases h
  have hlp : lp ∈ cur.pieces := List.mem_of_find?_eq_some hf
  have hagree : ∀ x ∈ cur.pieces, (fun q => Piece.peq q lp) x = (lp == x) := by
    intro x hx
    by_cases hxe : x = lp
    · subst hxe
      simp [peq_refl]
    · have hne : Piece.peq x lp = false := by
        cases hp : Piece.peq x lp
        · rfl
        · exact absurd (List.inj_on_of_nodup_map hids hx hlp ((peq_true_iff x lp).1 hp).1)
            hxe
      have hbe : (lp == x) = false := by
        cases hb : (lp == x)
        · rfl
        · exact absurd (beq_iff_eq.1 hb).symm hxe
      dsimp only
      rw [hne, hbe]
  rw [eraseP_agree _ _ cur.pieces hagree]
  rw [← List.erase_eq_eraseP]
  exact (List.perm_cons_erase hlp).symm

theorem candidates_mem (ps : List Piece) (p : Piece) (d : Cardinal)
    (hp : p ∈ ps) (hd : d ∈ p.directionsList) : (p, d) ∈ candidates ps := by
  rw [candidates, List.mem_flatMap]
  exact ⟨p, hp, List.mem_map.2 ⟨d, hd, rfl⟩⟩

/-- The mid-expansion invariant of the breadth-first search: `cur` has been
dequeued (at distance `dep`) and is partially expanded; `q` is the current
frontier and `m` the current visited map. -/
structure ExpInv (s0 cur : State) (dep : Nat) (q : List State) (m : SMap) : Prop where
  keys_good : ∀ e ∈ m, e.1.isValidE = some true ∧ skeleton e.1 = skeleton s0
  keys_reach : ∀ e ∈ m, ∃ n, ReachN s0 n e.1
  key_s0 : keyMem m s0
  q_sub : ∀ s ∈ q, keyMem m s
  unsolved : ∀ e ∈ m, e.1 = s0 ∨ e.1.isSolvedE = some false
  closure : ∀ e ∈ m, e.1 ∉ q → e.1 ≠ cur → ∀ s', StepRel e.1 s' → keyMem m s'
  blocks : ∃ q1 q2, q = q1 ++ q2 ∧ (∀ s ∈ q1, HasDist s0 dep s) ∧
    ∀ s ∈ q2, HasDist s0 (dep + 1) s
  coverage : ∀ v k, k ≤ dep → ReachN s0 k v → keyMem m v

theorem expand_preserves (s0 : State)
    (hids : (s0.pieces.map Piece.id).Nodup)
    (cur : State) (dep : Nat) (hcur : ReachN s0 dep cur)
    (hcg : cur.isValidE = some true) (hcs : skeleton cur = skeleton s0) :
    ∀ (cands : List (Piece × Cardinal)) (q : List State) (m : SMap),
      (∀ pd ∈ cands, pd.1 ∈ cur.pieces) →
      (∀ s', StepRel cur s' →
        (∃ pd ∈ cands, cur.move pd.1 pd.2 = some s') ∨ keyMem m s') →
      ExpInv s0 cur dep q m →
      (∀ q' m', expandCands cur cands q m = .next q' m' →
        ExpInv s0 cur dep q' m' ∧ (∀ s', StepRel cur s' → keyMem m' s')) ∧
      (∀ sf q' m', expandCands cur cands q m = .found sf q' m' →
        sf.isSolvedE = some true ∧ HasDist s0 (dep + 1) sf ∧ sf ≠ s0 ∧
        (∀ k s', ReachN s0 k s' → s'.isSolvedE = some true → s' ≠ s0 →
          dep + 1 ≤ k)) := by
  have hcurids : (cur.pieces.map Piece.id).Nodup := by
    rw [skeleton_ids, hcs, ← skeleton_ids]
    exact hids
  intro cands
  induction cands with
  | nil =>
    intro q m _ hcov hinv
    constructor
    · intro q' m' h
      cases h
      refine ⟨hinv, fun s' hs' => ?_⟩
      rcases hcov s' hs' with ⟨pd, hpd, _⟩ | hk
      · cases hpd
      · exact hk
    · intro sf q' m' h
      cases h
  | cons c rest ih =>
    obtain ⟨p, d⟩ := c
    intro q m hsrc hcov hinv
    have hsrc' : ∀ pd ∈ rest, pd.1 ∈ cur.pieces := fun pd hpd => hsrc pd (by simp [hpd])
    have hpmem : p ∈ cur.pieces := hsrc (p, d) (by simp)
    constructor
    · intro q' m' h
      simp only [expandCands] at h
      rcases hm : cur.move p d with _ | s' <;> rw [hm] at h <;> (try dsimp only at h)
      · cases h
      rcases hv : s'.isValidE with _ | valid <;> rw [hv] at h <;> (try dsimp only at h)
      · cases h
      by_cases hc : (valid && !mapContains m s') = true
      · rw [if_pos hc] at h
        rcases hs : s'.isSolvedE with _ | b <;> rw [hs] at h <;> (try dsimp only at h)
        · cases h
        cases b <;> (try dsimp only at h)
        · -- fresh unsolved successor: inserted
          have hvalid : valid = true := ((Bool.and_eq_true _ _).mp hc).1
          subst hvalid
          have hfresh : mapContains m s' = false := by
            have h2 := ((Bool.and_eq_true _ _).mp hc).2
            simpa using h2
          have hstep : StepRel cur s' := ⟨p, hpmem, d, hm, hv⟩
          have hsk : skeleton s' = skeleton s0 := by
            rw [move_skeleton cur p d s' hpmem hcurids hcg hm]
            exact hcs
          have hreach : ReachN s0 (dep + 1) s' := ⟨cur, hcur, hstep⟩
          have hnotkey : ¬ keyMem m s' := by
            intro hk
            rw [← mapContains_iff_keyMem s0 m
              (fun e he => (hinv.keys_good e he).2) s' hsk] at hk
            rw [hfresh] at hk
            cases hk
          have hdist : HasDist s0 (dep + 1) s' := by
            refine ⟨hreach, fun k hk => ?_⟩
            by_contra hlt
            exact hnotkey (hinv.coverage s' k (by omega) hk)
          have hinv' : ExpInv s0 cur dep (q ++ [s'])
              (m ++ [(s', some ⟨p.id, d, 1⟩)]) := by
            obtain ⟨q1, q2, hq12, hq1, hq2⟩ := hinv.blocks
            refine ⟨?_, ?_, ?_, ?_, ?_, ?_, ?_, ?_⟩
            · intro e he
              rcases List.mem_append.1 he with he' | he'
              · exact hinv.keys_good e he'
              · have : e = (s', some ⟨p.id, d, 1⟩) := by simpa using he'
                subst this
                exact ⟨hv, hsk⟩
            · intro e he
              rcases List.mem_append.1 he with he' | he'
              · exact hinv.keys_reach e he'
              · have : e = (s', some ⟨p.id, d, 1⟩) := by simpa using he'
                subst this
                exact ⟨dep + 1, hreach⟩
            · exact keyMem_append _ _ _ hinv.key_s0
            · intro s hs
              rcases List.mem_append.1 hs with hs' | hs'
              · exact keyMem_append _ _ _ (hinv.q_sub s hs')
              · have hss : s = s' := by simpa using hs'
                exact ⟨(s', some ⟨p.id, d, 1⟩), by simp, hss.symm⟩
            · intro e he
              rcases List.mem_append.1 he with he' | he'
              · exact hinv.unsolved e he'
              · have : e = (s', some ⟨p.id, d, 1⟩) := by simpa using he'
                subst this
                exact Or.inr hs
            · intro e he hnq hne t ht
              rcases List.mem_append.1 he with he' | he'
              · refine keyMem_append _ _ _ (hinv.closure e he' ?_ hne t ht)
                intro hmem
                exact hnq (List.mem_append.2 (Or.inl hmem))
              · exfalso
                have : e = (s', some ⟨p.id, d, 1⟩) := by simpa using he'
                subst this
                exact hnq (List.mem_append.2 (Or.inr (by simp)))
            · exact ⟨q1, q2 ++ [s'], by rw [hq12, List.append_assoc], hq1,
                fun s hs => by
                  rcases List.mem_append.1 hs with hs' | hs'
                  · exact hq2 s hs'
                  · have : s = s' := by simpa using hs'
                    subst this
                    exact hdist⟩
            · intro v k hk hr
              exact keyMem_append _ _ _ (hinv.coverage v k hk hr)
          have hcov' : ∀ t, StepRel cur t →
              (∃ pd ∈ rest, cur.move pd.1 pd.2 = some t) ∨
                keyMem (m ++ [(s', some ⟨p.id, d, 1⟩)]) t := by
            intro t ht
            rcases hcov t ht with ⟨pd, hpd, hpdm⟩ | hk
            · rcases List.mem_cons.1 hpd with rfl | hpd'
              · right
                have : t = s' := by
                  rw [hpdm] at hm
                  exact Option.some_inj.1 hm
                subst this
                exact ⟨(t, some ⟨p.id, d, 1⟩), by simp, rfl⟩
              · exact Or.inl ⟨pd, hpd', hpdm⟩
            · exact Or.inr (keyMem_append _ _ _ hk)
          exact (ih _ _ hsrc' hcov' hinv').1 q' m' h
        · cases h
      · rw [if_neg hc] at h
        -- successor invalid or already visited: discarded
        have hcov' : ∀ t, StepRel cur t →
            (∃ pd ∈ rest, cur.move pd.1 pd.2 = some t) ∨ keyMem m t := by
          intro t ht
          rcases hcov t ht with ⟨pd, hpd, hpdm⟩ | hk
          · rcases List.mem_cons.1 hpd with rfl | hpd'
            · right
              have hts : t = s' := by
                rw [hpdm] at hm
                exact Option.some_inj.1 hm
              subst hts
              obtain ⟨_, _, _, hmv', hval'⟩ := ht
              have hvt : valid = true := by
                rw [hv] at hval'
                exact Option.some_inj.1 hval'
              subst hvt
              have : mapContains m t = true := by
                cases hmc : mapContains m t
                · rw [hmc] at hc
                  simp at hc
                · rfl
              have hsk : skeleton t = skeleton s0 := by
                rw [move_skeleton cur p d t hpmem hcurids hcg hm]
                exact hcs
              rw [mapContains_iff_keyMem s0 m
                (fun e he => (hinv.keys_good e he).2) t hsk] at this
              exact this
            · exact Or.inl ⟨pd, hpd', hpdm⟩
          · exact Or.inr hk
        exact (ih _ _ hsrc' hcov' hinv).1 q' m' h
    · intro sf q' m' h
      simp only [expandCands] at h
      rcases hm : cur.move p d with _ | s' <;> rw [hm] at h <;> (try dsimp only at h)
      · cases h
      rcases hv : s'.isValidE with _ | valid <;> rw [hv] at h <;> (try dsimp only at h)
      · cases h
      by_cases hc : (valid && !mapContains m s') = true
      · rw [if_pos hc] at h
        rcases hs : s'.isSolvedE with _ | b <;> rw [hs] at h <;> (try dsimp only at h)
        · cases h
        cases b <;> (try dsimp only at h)
        · -- inserted unsolved, recurse (rebuild the invariant as in the next case)
          have hvalid : valid = true := ((Bool.and_eq_true _ _).mp hc).1
          subst hvalid
          have hfresh : mapContains m s' = false := by
            have h2 := ((Bool.and_eq_true _ _).mp hc).2
            simpa using h2
          have hstep : StepRel cur s' := ⟨p, hpmem, d, hm, hv⟩
          have hsk : skeleton s' = skeleton s0 := by
            rw [move_skeleton cur p d s' hpmem hcurids hcg hm]
            exact hcs
          have hreach : ReachN s0 (dep + 1) s' := ⟨cur, hcur, hstep⟩
          have hnotkey : ¬ keyMem m s' := by
            intro hk
            rw [← mapContains_iff_keyMem s0 m
              (fun e he => (hinv.keys_good e he).2) s' hsk] at hk
            rw [hfresh] at hk
            cases hk
          have hdist : HasDist s0 (dep + 1) s' := by
            refine ⟨hreach, fun k hk => ?_⟩
            by_contra hlt
            exact hnotkey (hinv.coverage s' k (by omega) hk)
          have hinv' : ExpInv s0 cur dep (q ++ [s'])
              (m ++ [(s', some ⟨p.id, d, 1⟩)]) := by
            obtain ⟨q1, q2, hq12, hq1, hq2⟩ := hinv.blocks
            refine ⟨?_, ?_, ?_, ?_, ?_, ?_, ?_, ?_⟩
            · intro e he
              rcases List.mem_append.1 he with he' | he'
              · exact hinv.keys_good e he'
              · have : e = (s', some ⟨p.id, d, 1⟩) := by simpa using he'
                subst this
                exact ⟨hv, hsk⟩
            · intro e he
              rcases List.mem_append.1 he with he' | he'
              · exact hinv.keys_reach e he'
              · have : e = (s', some ⟨p.id, d, 1⟩) := by simpa using he'
                subst this
                exact ⟨dep + 1, hreach⟩
            · exact keyMem_append _ _ _ hinv.key_s0
            · intro s hs
              rcases List.mem_append.1 hs with hs' | hs'
              · exact keyMem_append _ _ _ (hinv.q_sub s hs')
              · have hss : s = s' := by simpa using hs'
                exact ⟨(s', some ⟨p.id, d, 1⟩), by simp, hss.symm⟩
            · intro e he
              rcases List.mem_append.1 he with he' | he'
              · exact hinv.unsolved e he'
              · have : e = (s', some ⟨p.id, d, 1⟩) := by simpa using he'
                subst this
                exact Or.inr hs
            · intro e he hnq hne t ht
              rcases List.mem_append.1 he with he' | he'
              · refine keyMem_append _ _ _ (hinv.closure e he' ?_ hne t ht)
                intro hmem
                exact hnq (List.mem_append.2 (Or.inl hmem))
              · exfalso
                have : e = (s', some ⟨p.id, d, 1⟩) := by simpa using he'
                subst this
                exact hnq (List.mem_append.2 (Or.inr (by simp)))
            · exact ⟨q1, q2 ++ [s'], by rw [hq12, List.append_assoc], hq1,
                fun s hs => by
                  rcases List.mem_append.1 hs with hs' | hs'
                  · exact hq2 s hs'
                  · have : s = s' := by simpa using hs'
                    subst this
                    exact hdist⟩
            · intro v k hk hr
              exact keyMem_append _ _ _ (hinv.coverage v k hk hr)
          have hcov' : ∀ t, StepRel cur t →
              (∃ pd ∈ rest, cur.move pd.1 pd.2 = some t) ∨
                keyMem (m ++ [(s', some ⟨p.id, d, 1⟩)]) t := by
            intro t ht
            rcases hcov t ht with ⟨pd, hpd, hpdm⟩ | hk
            · rcases List.mem_cons.1 hpd with rfl | hpd'
              · right
                have : t = s' := by
                  rw [hpdm] at hm
                  exact Option.some_inj.1 hm
                subst this
                exact ⟨(t, some ⟨p.id, d, 1⟩), by simp, rfl⟩
              · exact Or.inl ⟨pd, hpd', hpdm⟩
            · exact Or.inr (keyMem_append _ _ _ hk)
          exact (ih _ _ hsrc' hcov' hinv').2 sf q' m' h
        · -- the found case
          cases h
          have hvalid : valid = true := ((Bool.and_eq_true _ _).mp hc).1
          subst hvalid
          have hfresh : mapContains m sf = false := by
            have h2 := ((Bool.and_eq_true _ _).mp hc).2
            simpa using h2
          have hstep : StepRel cur sf := ⟨p, hpmem, d, hm, hv⟩
          have hsk : skeleton sf = skeleton s0 := by
            rw [move_skeleton cur p d sf hpmem hcurids hcg hm]
            exact hcs
          have hreach : ReachN s0 (dep + 1) sf := ⟨cur, hcur, hstep⟩
          have hnotkey : ¬ keyMem m sf := by
            intro hk
            rw [← mapContains_iff_keyMem s0 m
              (fun e he => (hinv.keys_good e he).2) sf hsk] at hk
            rw [hfresh] at hk
            cases hk
          have hdist : HasDist s0 (dep + 1) sf := by
            refine ⟨hreach, fun k hk => ?_⟩
            by_contra hlt
            exact hnotkey (hinv.coverage sf k (by omega) hk)
          have hne0 : sf ≠ s0 := by
            rintro rfl
            exact hnotkey hinv.key_s0
          refine ⟨hs, hdist, hne0, ?_⟩
          intro k t hkt htsolved htne
          by_contra hlt
          have hkm : keyMem m t := hinv.coverage t k (by omega) hkt
          obtain ⟨e, he, heq⟩ := hkm
          rcases hinv.unsolved e he with he0 | heunsolved
          · exact htne (by rw [← heq, he0])
          · rw [heq, htsolved] at heunsolved
            cases heunsolved
      · rw [if_neg hc] at h
        have hcov' : ∀ t, StepRel cur t →
            (∃ pd ∈ rest, cur.move pd.1 pd.2 = some t) ∨ keyMem m t := by
          intro t ht
          rcases hcov t ht with ⟨pd, hpd, hpdm⟩ | hk
          · rcases List.mem_cons.1 hpd with rfl | hpd'
            · right
              have hts : t = s' := by
                rw [hpdm] at hm
                exact Option.some_inj.1 hm
              subst hts
              obtain ⟨_, _, _, hmv', hval'⟩ := ht
              have hvt : valid = true := by
                rw [hv] at hval'
                exact Option.some_inj.1 hval'
              subst hvt
              have hmc : mapContains m t = true := by
                cases hmc : mapContains m t
                · rw [hmc] at hc
                  simp at hc
                · rfl
              have hsk : skeleton t = skeleton s0 := by
                rw [move_skeleton cur p d t hpmem hcurids hcg hm]
                exact hcs
              rw [mapContains_iff_keyMem s0 m
                (fun e he => (hinv.keys_good e he).2) t hsk] at hmc
              exact hmc
            · exact Or.inl ⟨pd, hpd', hpdm⟩
          · exact Or.inr hk
        exact (ih _ _ hsrc' hcov' hinv).2 sf q' m' h

theorem reach_in_closed_map (s0 : State) (m : SMap)
    (hs0 : keyMem m s0)
    (hclosed : ∀ e ∈ m, ∀ s', StepRel e.1 s' → keyMem m s') :
    ∀ k s', ReachN s0 k s' → keyMem m s' := by
  intro k
  induction k with
  | zero =>
    intro s' h
    rw [ReachN] at h
    subst h
    exact hs0
  | succ n ih =>
    intro s' h
    obtain ⟨t, ht, hstep⟩ := h
    obtain ⟨e, he, heq⟩ := ih t ht
    refine hclosed e he s' ?_
    rw [heq]
    exact hstep

theorem candidates_src (ps : List Piece) : ∀ pd ∈ candidates ps, pd.1 ∈ ps := by
  intro pd hpd
  rw [candidates, List.mem_flatMap] at hpd
  obtain ⟨p, hp, hmem⟩ := hpd
  obtain ⟨d, _, rfl⟩ := List.mem_map.1 hmem
  exact hp

/-- The between-iterations invariant of the breadth-first search. -/
structure BfsInv (s0 : State) (q : List State) (m : SMap) : Prop where
  keys_good : ∀ e ∈ m, e.1.isValidE = some true ∧ skeleton e.1 = skeleton s0
  keys_reach : ∀ e ∈ m, ∃ n, ReachN s0 n e.1
  key_s0 : keyMem m s0
  q_sub : ∀ s ∈ q, keyMem m s
  unsolved : ∀ e ∈ m, e.1 = s0 ∨ e.1.isSolvedE = some false
  closure : ∀ e ∈ m, e.1 ∉ q → ∀ s', StepRel e.1 s' → keyMem m s'
  blocks : ∃ dep q1 q2, q = q1 ++ q2 ∧ (∀ s ∈ q1, HasDist s0 dep s) ∧
    (∀ s ∈ q2, HasDist s0 (dep + 1) s) ∧
    ∀ v k, k ≤ dep → ReachN s0 k v → keyMem m v

theorem bfs_sound (s0 : State) (hids : (s0.pieces.map Piece.id).Nodup) :
    ∀ (fuel : Nat) (q : List State) (m : SMap),
      BfsInv s0 q m →
      (∀ sf m', bfsAux fuel q m = .found sf m' →
        sf.isSolvedE = some true ∧ ∃ n, 0 < n ∧ ReachN s0 n sf ∧
          (∀ k, ReachN s0 k sf → n ≤ k) ∧
          ∀ k s', ReachN s0 k s' → s'.isSolvedE = some true → s' ≠ s0 → n ≤ k) ∧
      (bfsAux fuel q m = .noSolution →
        ∀ k s', ReachN s0 k s' → s'.isSolvedE = some true → s' = s0) := by
  intro fuel
  induction fuel with
  | zero =>
    intro q m hinv
    constructor
    · intro sf m' h
      cases q <;> simp only [bfsAux] at h <;> cases h
    · intro h
      cases q with
      | nil =>
        have hclosed : ∀ e ∈ m, ∀ s', StepRel e.1 s' → keyMem m s' :=
          fun e he s' hs => hinv.closure e he (by simp) s' hs
        intro k s' hks hsolved
        obtain ⟨e, he, heq⟩ := reach_in_closed_map s0 m hinv.key_s0 hclosed k s' hks
        rcases hinv.unsolved e he with h0 | hunsolved
        · rw [← heq]
          exact h0
        · rw [heq, hsolved] at hunsolved
          cases hunsolved
      | cons c cs =>
        simp only [bfsAux] at h
        cases h
  | succ f ihf =>
    intro q m hinv
    cases q with
    | nil =>
      constructor
      · intro sf m' h
        simp only [bfsAux] at h
        cases h
      · intro h
        have hclosed : ∀ e ∈ m, ∀ s', StepRel e.1 s' → keyMem m s' :=
          fun e he s' hs => hinv.closure e he (by simp) s' hs
        intro k s' hks hsolved
        obtain ⟨e, he, heq⟩ := reach_in_closed_map s0 m hinv.key_s0 hclosed k s' hks
        rcases hinv.unsolved e he with h0 | hunsolved
        · rw [← heq]
          exact h0
        · rw [heq, hsolved] at hunsolved
          cases hunsolved
    | cons cur rest =>
      obtain ⟨ecur, hecur, heqcur⟩ := hinv.q_sub cur (by simp)
      obtain ⟨hcg, hcs⟩ : cur.isValidE = some true ∧ skeleton cur = skeleton s0 := by
        have := hinv.keys_good ecur hecur
        rw [heqcur] at this
        exact this
      have hcurids : (cur.pieces.map Piece.id).Nodup := by
        rw [skeleton_ids, hcs, ← skeleton_ids]
        exact hids
      obtain ⟨dep0, q1, q2, hq12, hq1, hq2, hcov0⟩ := hinv.blocks
      obtain ⟨dep, hcurdist, r1, r2, hrsplit, hr1, hr2, hcov⟩ :
          ∃ dep, HasDist s0 dep cur ∧ ∃ r1 r2, rest = r1 ++ r2 ∧
            (∀ s ∈ r1, HasDist s0 dep s) ∧ (∀ s ∈ r2, HasDist s0 (dep + 1) s) ∧
            ∀ v k, k ≤ dep → ReachN s0 k v → keyMem m v := by
        cases q1 with
        | nil =>
          cases q2 with
          | nil => simp at hq12
          | cons c2 t2 =>
            simp only [List.nil_append] at hq12
            obtain ⟨hc2, ht2⟩ := List.cons.injEq cur rest c2 t2 ▸ hq12
            refine ⟨dep0 + 1, hc2 ▸ hq2 c2 (by simp), t2, [], by simp [ht2],
              fun s hs => hq2 s (by simp [hs]), by simp, ?_⟩
            intro v k hk hr
            rcases Nat.lt_succ_iff_lt_or_eq.1 (Nat.lt_succ_of_le hk) with hlt | heq2
            · exact hcov0 v k (by omega) hr
            · subst heq2
              obtain ⟨t, ht, hstep⟩ := hr
              obtain ⟨e, he, heq⟩ := hcov0 t dep0 le_rfl ht
              have hnotq : e.1 ∉ cur :: rest := by
                intro hmem
                rw [hq12] at hmem
                have hd := hq2 e.1 hmem
                have := hd.2 dep0 (heq ▸ ht)
                omega
              refine hinv.closure e he hnotq v ?_
              rw [heq]
              exact hstep
        | cons c1 t1 =>
          simp only [List.cons_append] at hq12
          obtain ⟨hc1, ht1⟩ := List.cons.injEq cur rest c1 (t1 ++ q2) ▸ hq12
          exact ⟨dep0, hc1 ▸ hq1 c1 (by simp), t1, q2, ht1,
            fun s hs => hq1 s (by simp [hs]), hq2, hcov0⟩
      rcases ho : orderedPieces cur m with _ | ps
      · constructor
        · intro sf m' h
          simp only [bfsAux] at h
          rw [ho] at h
          dsimp only at h
          cases h
        · intro h
          simp only [bfsAux] at h
          rw [ho] at h
          dsimp only at h
          cases h
      · have hperm := orderedPieces_perm cur m ps hcurids ho
        have hexpinv : ExpInv s0 cur dep rest m :=
          ⟨hinv.keys_good, hinv.keys_reach, hinv.key_s0,
           fun s hs => hinv.q_sub s (by simp [hs]),
           hinv.unsolved,
           fun e he hnr hnc s' hs' =>
             hinv.closure e he
               (fun hmem => by
                 rcases List.mem_cons.1 hmem with h1 | h1
                 · exact hnc h1
                 · exact hnr h1) s' hs',
           ⟨r1, r2, hrsplit, hr1, hr2⟩, hcov⟩
        have hsrc : ∀ pd ∈ candidates ps, pd.1 ∈ cur.pieces :=
          fun pd hpd => hperm.mem_iff.1 (candidates_src ps pd hpd)
        have hcovcand : ∀ s', StepRel cur s' →
            (∃ pd ∈ candidates ps, cur.move pd.1 pd.2 = some s') ∨ keyMem m s' := by
          intro s' hs'
          obtain ⟨p, hp, d, hmv, _⟩ := hs'
          exact Or.inl ⟨(p, d),
            candidates_mem ps p d (hperm.mem_iff.2 hp)
              (move_some_allowed cur p d s' hp hmv), hmv⟩
        have hexp := expand_preserves s0 hids cur dep hcurdist.1 hcg hcs
          (candidates ps) rest m hsrc hcovcand hexpinv
        rcases he : expandCands cur (candidates ps) rest m with
          ⟨sf0, q0, m0⟩ | ⟨q0, m0⟩ | _
        · constructor
          · intro sf m' h
            simp only [bfsAux] at h
            rw [ho] at h
            dsimp only at h
            rw [he] at h
            dsimp only at h
            cases h
            obtain ⟨hsolved, hdist, _, hmin⟩ := hexp.2 sf0 q0 m0 he
            exact ⟨hsolved, dep + 1, by omega, hdist.1, hdist.2, hmin⟩
          · intro h
            simp only [bfsAux] at h
            rw [ho] at h
            dsimp only at h
            rw [he] at h
            dsimp only at h
            cases h
        · obtain ⟨hexpinv', hcurclosed⟩ := hexp.1 q0 m0 he
          have hinv' : BfsInv s0 q0 m0 :=
            ⟨hexpinv'.keys_good, hexpinv'.keys_reach, hexpinv'.key_s0,
             hexpinv'.q_sub, hexpinv'.unsolved,
             fun e he' hnq s' hs' => by
               by_cases hec : e.1 = cur
               · exact hcurclosed s' (hec ▸ hs')
               · exact hexpinv'.closure e he' hnq hec s' hs',
             by
               obtain ⟨b1, b2, hb12, hb1, hb2⟩ := hexpinv'.blocks
               exact ⟨dep, b1, b2, hb12, hb1, hb2, hexpinv'.coverage⟩⟩
          have hnext := ihf q0 m0 hinv'
          constructor
          · intro sf m' h
            simp only [bfsAux] at h
            rw [ho] at h
            dsimp only at h
            rw [he] at h
            dsimp only at h
            exact hnext.1 sf m' h
          · intro h
            simp only [bfsAux] at h
            rw [ho] at h
            dsimp only at h
            rw [he] at h
            dsimp only at h
            exact hnext.2 h
        · constructor
          · intro sf m' h
            simp only [bfsAux] at h
            rw [ho] at h
            dsimp only at h
            rw [he] at h
            dsimp only at h
            cases h
          · intro h
            simp only [bfsAux] at h
            rw [ho] at h
            dsimp only at h
            rw [he] at h
            dsimp only at h
            cases h

theorem bfsInv_init (s0 : State) (hvalid : s0.isValidE = some true) :
    BfsInv s0 [s0] [(s0, none)] := by
  refine ⟨?_, ?_, ⟨(s0, none), by simp, rfl⟩, ?_, ?_, ?_, ?_⟩
  · intro e he
    simp only [List.mem_singleton] at he
    subst he
    exact ⟨hvalid, rfl⟩
  · intro e he
    simp only [List.mem_singleton] at he
    subst he
    exact ⟨0, by rw [ReachN]⟩
  · intro s hs
    simp only [List.mem_singleton] at hs
    rw [hs]
    exact ⟨(s0, none), by simp, rfl⟩
  · intro e he
    simp only [List.mem_singleton] at he
    subst he
    exact Or.inl rfl
  · intro e he hnq
    simp only [List.mem_singleton] at he
    subst he
    exact absurd (by simp) hnq
  · refine ⟨0, [s0], [], by simp, ?_, by simp, ?_⟩
    · intro s hs
      simp only [List.mem_singleton] at hs
      subst hs
      exact ⟨by rw [ReachN], fun k _ => Nat.zero_le k⟩
    · intro v k hk hr
      interval_cases k
      rw [ReachN] at hr
      rw [hr]
      exact ⟨(s0, none), by simp, rfl⟩

/-- C1 (amended): when `find_solved_state`, started on a valid initial state
whose pieces have pairwise distinct ids, returns a solved state, that state is
indeed solved, is reached by some positive number `n` of valid unit moves,
`n` is its exact breadth-first distance from the initial state, and no solved
state other than the initial one is reachable in fewer than `n` unit moves — the
breadth-first search does find a solved state of minimal depth.  (The claim's
assertion about the returned *move count* is false: `Puzzle.solve` reports
`n + 2` moves because of the seeded `XD2` step, see the counterexample.) -/
theorem claim1_bfs_minimal_depth (s0 : State) (fuel : Nat) (sf : State) (m' : SMap)
    (hids : (s0.pieces.map Piece.id).Nodup)
    (hvalid : s0.isValidE = some true)
    (h : findSolvedState fuel s0 = .found sf m') :
    sf.isSolvedE = some true ∧
    ∃ n, 0 < n ∧ ReachN s0 n sf ∧ (∀ k, ReachN s0 k sf → n ≤ k) ∧
      ∀ k s', ReachN s0 k s' → s'.isSolvedE = some true → s' ≠ s0 → n ≤ k :=
  (bfs_sound s0 hids fuel [s0] [(s0, none)] (bfsInv_init s0 hvalid)).1 sf m'
    (by rw [findSolvedState] at h; exact h)

/-- C1 witness: on the board `sOneStep` the search finds `sOneStepFinal`, which
is solved, lies at breadth-first distance `n` from the start for some positive
`n`, and no other solved state is reachable in fewer unit moves. -/
theorem claim1_witness :
    (sOneStep.pieces.map Piece.id).Nodup ∧
    sOneStep.isValidE = some true ∧
    findSolvedState 100 sOneStep = .found sOneStepFinal mOneStep ∧
    (sOneStepFinal.isSolvedE = some true ∧
     ∃ n, 0 < n ∧ ReachN sOneStep n sOneStepFinal ∧
       (∀ k, ReachN sOneStep k sOneStepFinal → n ≤ k) ∧
       ∀ k s', ReachN sOneStep k s' → s'.isSolvedE = some true →
         s' ≠ sOneStep → n ≤ k) :=
  ⟨by decide, rfl, rfl,
   claim1_bfs_minimal_depth sOneStep 100 sOneStepFinal mOneStep (by decide) rfl rfl⟩

/-- C9 (amended): the two true halves of the claim.  (a) A candidate successor
that fails `is_valid` is silently discarded: expanding it leaves the queue and
the visited map untouched and the loop continues with the remaining candidates.
(b) When the frontier empties and `find_solved_state` raises
`Puzzle has no solution.`, genuinely no reachable solved state other than the
initial state exists.  (The "no other operational failure escapes solve" half of
the claim is false: `MoveGenerator.generate` can raise a `KeyError`, see the
counterexample.) -/
theorem claim9_failure_semantics
    (cur : State) (p : Piece) (d : Cardinal) (s' : State)
    (rest : List (Piece × Cardinal)) (q : List State) (m : SMap)
    (hmv : cur.move p d = some s')
    (hinvalid : s'.isValidE = some false)
    (s0 : State) (fuel : Nat)
    (hids : (s0.pieces.map Piece.id).Nodup)
    (hvalid : s0.isValidE = some true)
    (hns : findSolvedState fuel s0 = .noSolution) :
    expandCands cur ((p, d) :: rest) q m = expandCands cur rest q m ∧
    ∀ k s₁, ReachN s0 k s₁ → s₁.isSolvedE = some true → s₁ = s0 := by
  constructor
  · simp only [expandCands]
    rw [hmv]
    dsimp only
    rw [hinvalid]
    dsimp only
    simp
  · exact (bfs_sound s0 hids fuel [s0] [(s0, none)] (bfsInv_init s0 hvalid)).2
      (by rw [findSolvedState] at hns; exact hns)

/-- C9 witness: moving boat `A` of `s6Boat` up gives the invalid state
`s6BoatUp`; expanding that candidate discards it silently.  `sWalled` is a valid
state on which the search reports `Puzzle has no solution.`, and indeed no
reachable solved state other than `sWalled` itself exists. -/
theorem claim9_witness :
    State.move s6Boat ⟨.boat, "A", [⟨0, 0⟩, ⟨0, 1⟩]⟩ .UP = some s6BoatUp ∧
    s6BoatUp.isValidE = some false ∧
    (sWalled.pieces.map Piece.id).Nodup ∧
    sWalled.isValidE = some true ∧
    findSolvedState 100 sWalled = .noSolution ∧
    (expandCands s6Boat [(⟨.boat, "A", [⟨0, 0⟩, ⟨0, 1⟩]⟩, .UP)] [] [] =
       expandCands s6Boat [] [] [] ∧
     ∀ k s₁, ReachN sWalled k s₁ → s₁.isSolvedE = some true → s₁ = sWalled) :=
  ⟨rfl, rfl, by decide, rfl, rfl,
   claim9_failure_semantics s6Boat ⟨.boat, "A", [⟨0, 0⟩, ⟨0, 1⟩]⟩ .UP s6BoatUp
     [] [] [] rfl rfl sWalled 100 (by decide) rfl rfl⟩

end StormySeas
